import Mathlib

/-!
Verification development for the Masterfile Automation tool
(`app_masterfile.py`): a shallow embedding of its header-normalisation,
header-resolution, column-mapping, header-row auto-detection and row-transfer
logic, together with theorems about that embedding.

Modelling conventions:
* Python strings are Lean `String`s; character-level work happens on
  `List Char`.  `str.lower()` is modelled for ASCII (`toLowerPy`); the
  whitespace class of Python's `re`/`str.strip` is `isPySpace`.
* The onboarding sheet is read with `pd.read_excel(header=None, dtype=str)`
  followed by `.fillna("")`, so every cell is a string; the raw grid is
  `List (List String)`.
* A pandas `Series` of column data is a `List String`; a dataframe built by
  `build_on_df_from_raw` is an association list of (header, column values).
* The mutable mapping dict `MAPPING` is an association list threaded through
  `build_mapping` as explicit state (`AliasTable`), since the Python code
  mutates the stored alias lists in place (`aliases += [m_disp]`).
* The destination worksheet is a total function `Nat × Nat → String`
  ((row, column), 1-based as in openpyxl); `cell(row=r, column=c, value=v)`
  is a pointwise update.
-/

namespace Masterfile

/-! ## Character classes (from the regexes of `norm`, lines 15-23) -/

/-- Whitespace as matched by Python's `\s` (Unicode mode) and stripped by
`str.strip()`: ASCII whitespace, the C1 separators, NEL, NBSP and the
Unicode space characters. -/
def isPySpace (c : Char) : Bool :=
  decide (c.toNat = 32 ∨ c.toNat = 9 ∨ c.toNat = 10 ∨ c.toNat = 13 ∨
    c.toNat = 11 ∨ c.toNat = 12 ∨ (28 ≤ c.toNat ∧ c.toNat ≤ 31) ∨
    c.toNat = 133 ∨ c.toNat = 160 ∨ c.toNat = 5760 ∨
    (8192 ≤ c.toNat ∧ c.toNat ≤ 8202) ∨ c.toNat = 8232 ∨ c.toNat = 8233 ∨
    c.toNat = 8239 ∨ c.toNat = 8287 ∨ c.toNat = 12288)

/-- The separator class `[._/\-]` of `re.sub(r"[._/\\-]+", " ", x)`. -/
def isSep (c : Char) : Bool :=
  decide (c.toNat = 46 ∨ c.toNat = 95 ∨ c.toNat = 47 ∨ c.toNat = 92 ∨ c.toNat = 45)

/-- The kept class `[0-9a-z]` of `re.sub(r"[^0-9a-z\s]+", " ", x)`. -/
def isKept (c : Char) : Bool :=
  decide ((48 ≤ c.toNat ∧ c.toNat ≤ 57) ∨ (97 ≤ c.toNat ∧ c.toNat ≤ 122))

/-- The complement class `[^0-9a-z\s]`. -/
def isOther (c : Char) : Bool := !(isKept c || isPySpace c)

/-- NBSP replacement of `x.replace("\xa0", " ")`. -/
def nbspFix (c : Char) : Char := if c.toNat = 160 then ' ' else c

/-- Unicode dash normalisation: `x.replace("–","-").replace("—","-").replace("−","-")`. -/
def dashFix (c : Char) : Char :=
  if c.toNat = 8211 ∨ c.toNat = 8212 ∨ c.toNat = 8722 then '-' else c

/-- ASCII lowering, as Python `str.lower()` acts on ASCII letters. -/
def toLowerPy (c : Char) : Char :=
  if 65 ≤ c.toNat ∧ c.toNat ≤ 90 then Char.ofNat (c.toNat + 32) else c

/-- Python `str.strip()` on a character list: drop `isPySpace` from both ends. -/
def pyStrip (l : List Char) : List Char :=
  ((l.dropWhile isPySpace).reverse.dropWhile isPySpace).reverse

/-! ## The locale-suffix regex `\s*-\s*en\s*[-_ ]\s*us\s*$`

`re.sub` with a `$`-anchored pattern removes the longest suffix the pattern
matches (the leftmost match position).  We match the reversed string
deterministically: after the reversed `us` the region `\s*[-_ ]\s*` either
ends (reading backwards) at a literal `-`/`_`, or consists of whitespace
only, in which case one of those whitespace characters must be a literal
space to serve as the `[-_ ]` separator. -/

/-- Match the reversed pattern from `en` backwards: `\s*`, `n`, `e`, `\s*`,
`-`, `\s*`; returns the unconsumed (reversed) rest. -/
def locTailEn (r : List Char) : Option (List Char) :=
  match r.dropWhile isPySpace with
  | 'n' :: 'e' :: r5 =>
    match r5.dropWhile isPySpace with
    | '-' :: r7 => some (r7.dropWhile isPySpace)
    | _ => none
  | _ => none

/-- Match the whole reversed locale pattern; returns the unconsumed
(reversed) rest when the string ends with the locale suffix. -/
def locTail (r : List Char) : Option (List Char) :=
  match r.dropWhile isPySpace with
  | 's' :: 'u' :: r2 =>
    let sp := r2.takeWhile isPySpace
    let r3 := r2.dropWhile isPySpace
    match r3 with
    | '-' :: r4 => locTailEn r4
    | '_' :: r4 => locTailEn r4
    | _ => if sp.contains ' ' then locTailEn r3 else none
  | _ => none

/-- Remove the trailing locale suffix, as
`re.sub(r"\s*-\s*en\s*[-_ ]\s*us\s*$", "", x)`. -/
def stripLocale (l : List Char) : List Char :=
  match locTail l.reverse with
  | some rest => rest.reverse
  | none => l

/-- Replace every run of characters satisfying `p` by a single space, as
`re.sub(<class>+, " ", x)` does; `prev` records whether the previous
character was in the class. -/
def collapseAux (p : Char → Bool) : Bool → List Char → List Char
  | _, [] => []
  | prev, c :: cs =>
    if p c then
      if prev then collapseAux p true cs
      else ' ' :: collapseAux p true cs
    else c :: collapseAux p false cs

def collapseRuns (p : Char → Bool) (l : List Char) : List Char :=
  collapseAux p false l

/-- The text normaliser `norm` of app_masterfile.py (lines 15-23), on
character lists: NBSP fix, strip, lower, locale-suffix removal, dash
normalisation, separator runs to spaces, non-alphanumeric runs to spaces,
whitespace collapse and final strip. -/
def normChars (l : List Char) : List Char :=
  let x1 := (pyStrip (l.map nbspFix)).map toLowerPy
  let x2 := stripLocale x1
  let x3 := x2.map dashFix
  let x4 := collapseRuns isSep x3
  let x5 := collapseRuns isOther x4
  pyStrip (collapseRuns isPySpace x5)

/-- `norm(s)` of app_masterfile.py on strings. -/
def norm (s : String) : String := String.mk (normChars s.data)

/-! ## Similarity scorer (`top_matches`, lines 25-29)

`difflib.SequenceMatcher(...).ratio()` is an external stdlib collaborator,
not code of this repository. -/

/-- Longest common subsequence length, used by `simScore`. -/
def lcsLen : List Char → List Char → Nat
  | [], _ => 0
  | _ :: _, [] => 0
  | a :: xs, b :: ys =>
    if a == b then lcsLen xs ys + 1
    else max (lcsLen (a :: xs) ys) (lcsLen xs (b :: ys))
termination_by x y => x.length + y.length

/-- Modelled from the spec: the Similarity Scorer's per-candidate score, "a
character-level sequence-similarity ratio (... symmetric, 1.0 for identical
normalized strings, 0.0 for disjoint)"; the concrete block-matching
arithmetic of Python's `difflib.SequenceMatcher.ratio` (standard library,
outside the repository) is modelled as 2*lcs/(m+n), with ratio 1 for two
empty strings as in difflib. -/
def simScore (q c : String) : Rat :=
  if q.data.length + c.data.length = 0 then 1
  else (2 * (lcsLen q.data c.data : Int)) / ((q.data.length + c.data.length : Nat) : Rat)

/-- Stable descending insertion by score: later elements with an equal score
stay after earlier ones, as Python's stable `sort(..., reverse=True)`. -/
def insertScored (x : Rat × String) : List (Rat × String) → List (Rat × String)
  | [] => [x]
  | y :: ys => if y.1 ≥ x.1 then y :: insertScored x ys else x :: y :: ys

def sortScoredDesc (l : List (Rat × String)) : List (Rat × String) :=
  l.foldl (fun acc x => insertScored x acc) []

/-- `top_matches(query, candidates, k)`: score every candidate against the
normalised query, sort descending (stable), take `k`. -/
def topMatches (query : String) (candidates : List String) (k : Nat) :
    List (Rat × String) :=
  (sortScoredDesc (candidates.map (fun c => (simScore (norm query) (norm c), c)))).take k

/-! ## Header cleaning and the Header Resolver
(`clean_header_row` lines 50-58, `build_on_df_from_raw` lines 60-87) -/

/-- `clean_header_row` on one cell: `str(v).replace("\xa0", " ").strip()`
(after `fillna("")` no cell is None, so every cell is a string). -/
def cleanCell (s : String) : String := String.mk (pyStrip (s.data.map nbspFix))

def cleanHeaderRow (row : List String) : List String := row.map cleanCell

/-- The keep loop of `build_on_df_from_raw`: drop blank-normalised headers,
drop duplicates by normalised name (`seen_norm`), keep (original index,
display name); `i` is the running 0-based index. -/
def keepAux : Nat → List String → List String → List (Nat × String)
  | _, _, [] => []
  | i, seen, h :: rest =>
    let hn := norm h
    if hn = "" then keepAux (i + 1) seen rest
    else if hn ∈ seen then keepAux (i + 1) seen rest
    else (i, if h = "" then "col_" ++ toString (i + 1) else h) ::
      keepAux (i + 1) (hn :: seen) rest

def keepHeaders (headersRaw : List String) : List (Nat × String) :=
  keepAux 0 [] headersRaw

/-- An onboarding dataframe: association list of (header display name, column
values). -/
abbrev OnDf := List (String × List String)

/-- `build_on_df_from_raw(raw_df, h0)`: clean the header row at 0-based
offset `h0`, keep the resolved headers, and take the data region strictly
below the header row (column `idx` of every later row); returns the
dataframe together with the kept header names. -/
def buildOnDf (rawDf : List (List String)) (h0 : Nat) : OnDf × List String :=
  let headersRaw := cleanHeaderRow (rawDf.getD h0 [])
  let kept := keepHeaders headersRaw
  let dataRows := rawDf.drop (h0 + 1)
  (kept.map (fun p => (p.2, dataRows.map (fun row => row.getD p.1 ""))),
   kept.map (fun p => p.2))

/-! ## Column Mapping Engine (`build_mapping`, lines 188-227)

`MAPPING` (line 165) is a dict from normalised master label to alias list;
`aliases = MAPPING.get(disp_norm, []); aliases += [m_disp]` mutates the
stored list in place when the key is present, so the table is threaded as
state. -/

abbrev AliasTable := List (String × List String)

/-- `MAPPING.get(k, [])`. -/
def mapGet (M : AliasTable) (k : String) : List String :=
  match M.find? (fun p => p.1 = k) with
  | some p => p.2
  | none => []

/-- Whether `k` is a key of the table. -/
def hasKey (M : AliasTable) (k : String) : Bool :=
  (M.find? (fun p => p.1 = k)).isSome

/-- The in-place `aliases += [m_disp]` on the stored list at key `k`; a no-op
when the key is absent (the `get` default `[]` is a fresh list). -/
def mapAppend (M : AliasTable) (k : String) (d : String) : AliasTable :=
  match M with
  | [] => []
  | (k', v) :: rest =>
    if k' = k then (k', v ++ [d]) :: rest else (k', v) :: mapAppend rest k d

/-- The state change one master column applies to `MAPPING`: append the
display label to the stored alias list when the label is truthy. -/
def stepM (M : AliasTable) (d : String) : AliasTable :=
  if d = "" then M else mapAppend M (norm d) d

/-- `series_by_alias = {norm(h): df[h] for h in on_headers}`: a dict
comprehension, so on duplicate normalised headers the last one wins. -/
def seriesByAlias (df : OnDf) (k : String) : Option (List String) :=
  (df.reverse.find? (fun p => norm p.1 = k)).map (fun p => p.2)

/-- The candidate alias list of one master column: the (current) alias-table
entry for the normalised display label, with the raw display label appended
when truthy. -/
def aliasList (M : AliasTable) (d : String) : List String :=
  mapGet M (norm d) ++ (if d = "" then [] else [d])

/-- The `for a in aliases: ... break` loop: the first alias whose normalised
form is a key of `series_by_alias` wins, together with its column data. -/
def firstAliasMatch (df : OnDf) : List String → Option (String × List String)
  | [] => none
  | a :: rest =>
    match seriesByAlias df (norm a) with
    | some vals => some (a, vals)
    | none => firstAliasMatch df rest

/-- The per-column outcome of `build_mapping`: resolved to a source column,
the Listing-Action fixed-value sentinel, or unmatched (with similarity
suggestions). -/
inductive ColOut where
  | ok (a : String) (vals : List String)
  | fixedList
  | noMatch (suggestions : List (Rat × String))
deriving DecidableEq

def listingActionLabel : String := "Listing Action (List or Unlist)"

/-- One master column of the `build_mapping` loop body (lines 198-226),
reading the alias table *before* this column's own append: the walked list
`mapGet M (norm d) ++ [d]` equals the mutated stored list. -/
def colOutcome (df : OnDf) (M : AliasTable) (d : String) : ColOut :=
  match firstAliasMatch df (aliasList M d) with
  | some (a, vals) => .ok a vals
  | none =>
    if norm d = norm listingActionLabel then .fixedList
    else .noMatch (topMatches d (df.map (fun p => p.1)) 3)

/-- The column loop of `build_mapping`: per-column outcomes in order, with
the alias-table state threaded left to right. -/
def buildMappingGo (df : OnDf) : List String → AliasTable → List ColOut × AliasTable
  | [], M => ([], M)
  | d :: rest, M =>
    let outC := colOutcome df M d
    let r := buildMappingGo df rest (stepM M d)
    (outC :: r.1, r.2)

/-- A line of the mapping report (the log strings, modelled structurally). -/
inductive ReportLine where
  | okLine (disp a : String)
  | fixedLine (disp : String)
  | noMatchLine (disp : String) (suggestions : List (Rat × String))
deriving DecidableEq

/-- The aggregated result of `build_mapping`: `resolved`, `master_to_source`
together with `chosen_alias` (as `entries`, keyed by 1-based destination
column), `unmatched` and `report_lines`. -/
structure MapResult where
  resolved : Nat
  entries : List (Nat × ColOut)
  unmatched : List String
  report : List ReportLine
deriving DecidableEq

/-- Fold the per-column outcomes into the returned aggregates; `start` is the
1-based column index of the first listed column. -/
def assemble (start : Nat) : List (String × ColOut) → MapResult
  | [] => ⟨0, [], [], []⟩
  | (d, o) :: rest =>
    let r := assemble (start + 1) rest
    match o with
    | .ok a vals =>
      ⟨r.resolved + 1, (start, .ok a vals) :: r.entries, r.unmatched,
       .okLine d a :: r.report⟩
    | .fixedList =>
      ⟨r.resolved, (start, .fixedList) :: r.entries, r.unmatched,
       .fixedLine d :: r.report⟩
    | .noMatch sug =>
      ⟨r.resolved, r.entries, d :: r.unmatched, .noMatchLine d sug :: r.report⟩

/-- `build_mapping(df)` with master displays `md` and alias-table state `M`. -/
def buildMapping (md : List String) (df : OnDf) (M : AliasTable) :
    MapResult × AliasTable :=
  let r := buildMappingGo df md M
  (assemble 1 (md.zip r.1), r.2)

/-! ## Header-Row Auto-Detector (lines 238-256) -/

/-- The candidate header-row offsets:
`max_try = min(10, len(raw_df) - 1); range(0, max_try + 1)` — the Python
arithmetic is on ints, so an empty sheet gives `range(0, 0)`. -/
def candidatePositions (rowCount : Nat) : List Nat :=
  let maxTry : Int := min 10 ((rowCount : Int) - 1)
  if maxTry < 0 then [] else List.range (maxTry.toNat + 1)

/-- Python's tuple comparison `score > best[0]` on `(resolved, kept)`. -/
def lexGt (s t : Nat × Nat) : Bool :=
  decide (t.1 < s.1) || (decide (t.1 = s.1) && decide (t.2 < s.2))

/-- The winning candidate: its score, header-row offset, dataframe, mapping
result and kept header names (the tuple stored in `best`). -/
structure Best where
  score : Nat × Nat
  h0 : Nat
  onDf : OnDf
  res : MapResult
  kept : List String
deriving DecidableEq

/-- The auto-detect loop: evaluate each candidate offset (threading the
alias-table state through the repeated `build_mapping` calls) and keep the
strictly better score. -/
def autoDetectGo (md : List String) (rawDf : List (List String)) :
    List Nat → AliasTable → Option Best → Option Best × AliasTable
  | [], M, best => (best, M)
  | h0 :: rest, M, best =>
    let dfk := buildOnDf rawDf h0
    let rM := buildMapping md dfk.1 M
    let score := (rM.1.resolved, dfk.2.length)
    let best' :=
      match best with
      | none => some ⟨score, h0, dfk.1, rM.1, dfk.2⟩
      | some b => if lexGt score b.score then some ⟨score, h0, dfk.1, rM.1, dfk.2⟩
                  else some b
    autoDetectGo md rawDf rest rM.2 best'

/-- Auto-detection: `none` models the `"Could not auto-detect a usable header
row."` fatal error (`best is None`). -/
def autoDetect (md : List String) (M : AliasTable) (rawDf : List (List String)) :
    Option Best :=
  (autoDetectGo md rawDf (candidatePositions rawDf.length) M none).1

/-- The candidate scores in loop order, with the same alias-table threading:
each element is ((resolved, kept count), candidate offset). -/
def candScores (md : List String) (rawDf : List (List String)) :
    List Nat → AliasTable → List ((Nat × Nat) × Nat)
  | [], _ => []
  | h0 :: rest, M =>
    let dfk := buildOnDf rawDf h0
    let rM := buildMapping md dfk.1 M
    ((rM.1.resolved, dfk.2.length), h0) :: candScores md rawDf rest rM.2

/-! ## Row Transfer Engine (lines 266-296) -/

/-- The destination worksheet: (row, column) ↦ cell value, 1-based. -/
abbrev Sheet := Nat × Nat → String

/-- `master_ws.cell(row=r, column=c, value=v)`. -/
def setCell (ws : Sheet) (r c : Nat) (v : String) : Sheet :=
  fun p => if p = (r, c) then v else ws p

/-- Python `str(val).strip()` on a cell value. -/
def stripStr (s : String) : String := String.mk (pyStrip s.data)

/-- `row_has_any_data(i)` (lines 270-276): some mapped `Series` source has a
non-blank value at row `i`; the Listing-Action sentinel is skipped, and a row
index beyond a column's length counts as blank. -/
def rowHasAnyData (entries : List (Nat × ColOut)) (i : Nat) : Bool :=
  entries.any (fun p =>
    match p.2 with
    | .ok _ vals => stripStr (if i < vals.length then vals.getD i "" else "") ≠ ""
    | _ => false)

/-- `master_to_source.get(c)`. -/
def lookupEntry (entries : List (Nat × ColOut)) (c : Nat) : Option ColOut :=
  (entries.find? (fun p => p.1 = c)).map (fun p => p.2)

/-- The inner `for c in range(1, used_cols + 1)` of the write loop
(lines 290-295), over the list of 0-based column offsets: the sentinel
writes the literal "List", a resolved series writes its row-`i` value when
in range, and an unmapped column is not touched. -/
def writeColsGo (entries : List (Nat × ColOut)) (i target : Nat) :
    List Nat → Sheet → Sheet
  | [], ws => ws
  | c0 :: rest, ws =>
    let c := c0 + 1
    let ws' :=
      match lookupEntry entries c with
      | some .fixedList => setCell ws target c "List"
      | some (.ok _ vals) =>
        if i < vals.length then setCell ws target c (vals.getD i "") else ws
      | _ => ws
    writeColsGo entries i target rest ws'

def writeRowCells (entries : List (Nat × ColOut)) (usedCols i target : Nat)
    (ws : Sheet) : Sheet :=
  writeColsGo entries i target (List.range usedCols) ws

/-- The outer write loop (lines 278-296): `blank_streak_limit = 50`,
`out_row_start = 3`; a row without data increments the blank streak and
stops the whole transfer once the streak reaches 50; a data row resets the
streak and is written at destination row `3 + written`. -/
def writeLoop (entries : List (Nat × ColOut)) (usedCols : Nat) :
    List Nat → Nat → Nat → Sheet → Sheet × Nat
  | [], _, written, ws => (ws, written)
  | i :: rest, blanks, written, ws =>
    if rowHasAnyData entries i then
      writeLoop entries usedCols rest 0 (written + 1)
        (writeRowCells entries usedCols i (3 + written) ws)
    else if blanks + 1 ≥ 50 then (ws, written)
    else writeLoop entries usedCols rest (blanks + 1) written ws

/-- The whole transfer pass over `range(len(on_df))`. -/
def transferRows (entries : List (Nat × ColOut)) (usedCols nRows : Nat)
    (ws : Sheet) : Sheet × Nat :=
  writeLoop entries usedCols (List.range nRows) 0 0 ws

/-- The sequence of source row indices the write loop writes, from a given
blank-streak state: the pure skeleton of `writeLoop`. -/
def transferAux (hasData : Nat → Bool) : List Nat → Nat → List Nat
  | [], _ => []
  | i :: rest, blanks =>
    if hasData i then i :: transferAux hasData rest 0
    else if blanks + 1 ≥ 50 then []
    else transferAux hasData rest (blanks + 1)

/-- The blank-streak state after a segment of rows, or `none` when the
50-streak stop fires inside the segment. -/
def blanksAfter (hasData : Nat → Bool) : List Nat → Nat → Option Nat
  | [], b => some b
  | i :: rest, b =>
    if hasData i then blanksAfter hasData rest 0
    else if b + 1 ≥ 50 then none
    else blanksAfter hasData rest (b + 1)

/-! ## Specification-side definitions compared against the code -/

/-- A character list in the normaliser's canonical form: only digits,
lowercase ASCII letters and spaces; no two adjacent whitespace characters;
no leading or trailing whitespace. -/
def Canonical (l : List Char) : Prop :=
  (∀ c ∈ l, isKept c = true ∨ c = ' ') ∧
  List.Chain' (fun a b => ¬(isPySpace a = true ∧ isPySpace b = true)) l ∧
  (∀ c, l.head? = some c → isPySpace c = false) ∧
  (∀ c, l.getLast? = some c → isPySpace c = false)

/-- Specification of the Header Resolver's keep condition for an indexed
header `q` of the cleaned row `hs`: its normalised form is non-empty and no
earlier header has the same normalised form (so the first occurrence wins). -/
def keptCond (hs : List String) (q : Nat × String) : Bool :=
  (norm q.2 ≠ "" : Bool) && ((hs.take q.1).all (fun g => (norm g ≠ norm q.2 : Bool)))

/-- Specification of the Header Resolver's output: the kept headers of the
cleaned row in first-seen order, each with its original 0-based position and
display name (the cleaned header, or the synthesised placeholder when it is
empty). -/
def specKeep (hs : List String) : List (Nat × String) :=
  (hs.enum.filter (keptCond hs)).map
    (fun q => (q.1, if q.2 = "" then "col_" ++ toString (q.1 + 1) else q.2))

/-- Strict lexicographic order on auto-detection scores (resolved count
dominates, kept-header count breaks ties). -/
def lexLtP (s t : Nat × Nat) : Prop := s.1 < t.1 ∨ (s.1 = t.1 ∧ s.2 < t.2)

/-- Reflexive lexicographic order on auto-detection scores. -/
def lexLeP (s t : Nat × Nat) : Prop := lexLtP s t ∨ s = t

/-- The display labels a (truthy-labelled) column sequence appends to the
alias-table entry at key `k`. -/
def appendsOf (C : List String) (k : String) : List String :=
  C.filter (fun d => (d ≠ "" : Bool) && (norm d = k : Bool))

/-- The auto-detect loop's `best` update for one examined candidate `X`:
keep the strictly better score (`score > best[0]`), first-seen wins ties. -/
def bestStep (X : Best) (best : Option Best) : Best :=
  match best with
  | none => X
  | some b => if lexGt X.score b.score then X else b

/-- The auto-detect loop invariant: either nothing has been examined yet, or
the current best candidate's score/offset pair occurs in the examined score
list, every examined score is at most the best score, and everything before
the best's occurrence is strictly below it (so the best is the first-seen
maximum). -/
def detectInv (ps : List ((Nat × Nat) × Nat)) (best : Option Best) : Prop :=
  (best = none ∧ ps = []) ∨
  (∃ b pre suf, best = some b ∧ ps = pre ++ ((b.score, b.h0) :: suf) ∧
    (∀ s ∈ ps, lexLeP s.1 b.score) ∧ (∀ s ∈ pre, lexLtP s.1 b.score))

/-! ## Lemmas: character classes -/

theorem allowed_char (c : Char) (h : isKept c = true ∨ c = ' ') :
    nbspFix c = c ∧ toLowerPy c = c ∧ dashFix c = c ∧ isSep c = false ∧
    isOther c = false ∧ (isPySpace c = true → c = ' ') ∧ c ≠ '-' ∧ c ≠ '_' := by
  rcases h with h | h
  · have hb : (48 ≤ c.toNat ∧ c.toNat ≤ 57) ∨ (97 ≤ c.toNat ∧ c.toNat ≤ 122) := by
      simpa [isKept] using h
    have hsp : isPySpace c = false := by
      simp only [isPySpace, decide_eq_false_iff_not]
      omega
    refine ⟨?_, ?_, ?_, ?_, ?_, ?_, ?_, ?_⟩
    · simp only [nbspFix]; rw [if_neg (by omega)]
    · simp only [toLowerPy]; rw [if_neg (by omega)]
    · simp only [dashFix]; rw [if_neg (by omega)]
    · simp only [isSep, decide_eq_false_iff_not]; omega
    · simp [isOther, h]
    · intro hs; rw [hs] at hsp; exact absurd hsp (by simp)
    · intro he; rw [he] at hb; exact absurd hb (by decide)
    · intro he; rw [he] at hb; exact absurd hb (by decide)
  · subst h; refine ⟨by decide, by decide, by decide, by decide, by decide, ?_, by decide, by decide⟩
    intro _; rfl

theorem space_isPySpace : isPySpace ' ' = true := by decide

/-! ## Lemmas: `collapseAux` -/

theorem mem_collapseAux (p : Char → Bool) :
    ∀ (l : List Char) (b : Bool) (c : Char), c ∈ collapseAux p b l →
      c = ' ' ∨ (c ∈ l ∧ p c = false) := by
  intro l
  induction l with
  | nil => intro b c h; simp [collapseAux] at h
  | cons a t ih =>
    intro b c h
    by_cases hp : p a
    · by_cases hb : b
      · subst hb
        simp only [collapseAux, hp, if_true] at h
        rcases ih true c h with h1 | ⟨h1, h2⟩
        · exact Or.inl h1
        · exact Or.inr ⟨List.mem_cons_of_mem _ h1, h2⟩
      · simp only [Bool.not_eq_true] at hb; subst hb
        simp [collapseAux, hp] at h
        rcases h with h1 | h1
        · exact Or.inl h1
        · rcases ih true c h1 with h2 | ⟨h2, h3⟩
          · exact Or.inl h2
          · exact Or.inr ⟨List.mem_cons_of_mem _ h2, h3⟩
    · simp [collapseAux, hp] at h
      rcases h with h1 | h1
      · subst h1; exact Or.inr ⟨List.mem_cons_self _ _, by simpa using hp⟩
      · rcases ih false c h1 with h2 | ⟨h2, h3⟩
        · exact Or.inl h2
        · exact Or.inr ⟨List.mem_cons_of_mem _ h2, h3⟩

theorem collapseAux_chain (p : Char → Bool) :
    ∀ (l : List Char) (b : Bool),
      List.Chain' (fun a d => ¬(p a = true ∧ p d = true)) (collapseAux p b l) ∧
      (b = true → ∀ c, (collapseAux p b l).head? = some c → p c = false) := by
  intro l
  induction l with
  | nil =>
    intro b
    exact ⟨by simp [collapseAux], by intro _ c h; simp [collapseAux] at h⟩
  | cons a t ih =>
    intro b
    by_cases hp : p a
    · by_cases hb : b
      · subst hb
        simp only [collapseAux, hp, if_true]
        exact ⟨(ih true).1, fun _ => (ih true).2 rfl⟩
      · simp only [Bool.not_eq_true] at hb; subst hb
        have hout : collapseAux p false (a :: t) = ' ' :: collapseAux p true t := by
          simp [collapseAux, hp]
        rw [hout]
        constructor
        · rw [List.chain'_cons']
          refine ⟨?_, (ih true).1⟩
          intro y hy
          have := (ih true).2 rfl y hy
          intro hcon; rw [this] at hcon; exact absurd hcon.2 (by simp)
        · intro hfalse; exact absurd hfalse (by simp)
    · have hout : collapseAux p b (a :: t) = a :: collapseAux p false t := by
        simp [collapseAux, hp]
      rw [hout]
      constructor
      · rw [List.chain'_cons']
        refine ⟨?_, (ih false).1⟩
        intro y _ h
        exact hp h.1
      · intro _ c h
        simp only [List.head?_cons, Option.some.injEq] at h
        subst h; simpa using hp

theorem collapseAux_eq_self_of_none (p : Char → Bool) :
    ∀ (l : List Char), (∀ c ∈ l, p c = false) → ∀ b, collapseAux p b l = l := by
  intro l
  induction l with
  | nil => intro _ b; rfl
  | cons a t ih =>
    intro h b
    have ha : p a = false := h a (List.mem_cons_self _ _)
    simp only [collapseAux, ha, Bool.false_eq_true, if_false]
    rw [ih (fun c hc => h c (List.mem_cons_of_mem _ hc)) false]

theorem collapseAux_flag (p : Char → Bool) (l : List Char)
    (h : ∀ c, l.head? = some c → p c = false) :
    collapseAux p true l = collapseAux p false l := by
  cases l with
  | nil => rfl
  | cons a t =>
    have ha : p a = false := h a rfl
    simp [collapseAux, ha]

theorem collapseAux_eq_self (p : Char → Bool) :
    ∀ (l : List Char),
      List.Chain' (fun a d => ¬(p a = true ∧ p d = true)) l →
      (∀ c ∈ l, p c = true → c = ' ') →
      collapseAux p false l = l := by
  intro l
  induction l with
  | nil => intro _ _; rfl
  | cons a t ih =>
    intro hch hsp
    have hch' := List.chain'_cons'.mp hch
    by_cases hp : p a
    · have ha : a = ' ' := hsp a (List.mem_cons_self _ _) hp
      have hout : collapseAux p false (a :: t) = ' ' :: collapseAux p true t := by
        simp [collapseAux, hp]
      rw [hout, collapseAux_flag p t, ih hch'.2 (fun c hc => hsp c (List.mem_cons_of_mem _ hc)), ha]
      intro c hc
      have := hch'.1 c hc
      by_contra hcp
      simp only [Bool.not_eq_false] at hcp
      exact this ⟨hp, hcp⟩
    · have hout : collapseAux p false (a :: t) = a :: collapseAux p false t := by
        simp [collapseAux, hp]
      rw [hout, ih hch'.2 (fun c hc => hsp c (List.mem_cons_of_mem _ hc))]

/-! ## Lemmas: `dropWhile` and `pyStrip` -/

theorem head?_dropWhile (p : Char → Bool) :
    ∀ (l : List Char) (c : Char), (l.dropWhile p).head? = some c → p c = false := by
  intro l
  induction l with
  | nil => intro c h; simp [List.dropWhile] at h
  | cons a t ih =>
    intro c h
    by_cases hp : p a
    · rw [List.dropWhile_cons_of_pos hp] at h; exact ih c h
    · rw [List.dropWhile_cons_of_neg hp] at h
      simp only [List.head?_cons, Option.some.injEq] at h
      subst h; simpa using hp

theorem dropWhile_eq_self (p : Char → Bool) (l : List Char)
    (h : ∀ c, l.head? = some c → p c = false) : l.dropWhile p = l := by
  cases l with
  | nil => rfl
  | cons a t => exact List.dropWhile_cons_of_neg (by simp [h a rfl])

theorem mem_of_mem_pyStrip {l : List Char} {c : Char} (h : c ∈ pyStrip l) : c ∈ l := by
  unfold pyStrip at h
  rw [List.mem_reverse] at h
  have h1 := List.IsSuffix.mem h (List.dropWhile_suffix _)
  rw [List.mem_reverse] at h1
  exact List.IsSuffix.mem h1 (List.dropWhile_suffix _)

theorem getLast?_of_suffix {l' l : List Char} {c : Char} (hs : l' <:+ l)
    (h : l'.getLast? = some c) : l.getLast? = some c := by
  obtain ⟨t, rfl⟩ := hs
  rw [List.getLast?_append_of_ne_nil]
  · exact h
  · intro hnil; rw [hnil] at h; simp at h

theorem pyStrip_head? (l : List Char) (c : Char) (h : (pyStrip l).head? = some c) :
    isPySpace c = false := by
  unfold pyStrip at h
  rw [List.head?_reverse] at h
  have h1 := getLast?_of_suffix (List.dropWhile_suffix _) h
  rw [List.getLast?_reverse] at h1
  exact head?_dropWhile _ _ _ h1

theorem pyStrip_getLast? (l : List Char) (c : Char) (h : (pyStrip l).getLast? = some c) :
    isPySpace c = false := by
  unfold pyStrip at h
  rw [List.getLast?_reverse] at h
  exact head?_dropWhile _ _ _ h

theorem pyStrip_chain'
    {l : List Char}
    (h : List.Chain' (fun a d => ¬(isPySpace a = true ∧ isPySpace d = true)) l) :
    List.Chain' (fun a d => ¬(isPySpace a = true ∧ isPySpace d = true)) (pyStrip l) := by
  unfold pyStrip
  have h1 := h.suffix (List.dropWhile_suffix (p := isPySpace))
  have h2 : List.Chain' (flip (fun a d => ¬(isPySpace a = true ∧ isPySpace d = true)))
      (l.dropWhile isPySpace) := h1.imp (fun a d had ⟨x, y⟩ => had ⟨y, x⟩)
  have h3 := List.chain'_reverse.mpr h2
  have h4 := h3.suffix (List.dropWhile_suffix (p := isPySpace))
  have h5 : List.Chain' (flip (fun a d => ¬(isPySpace a = true ∧ isPySpace d = true)))
      ((l.dropWhile isPySpace).reverse.dropWhile isPySpace) :=
    h4.imp (fun a d had ⟨x, y⟩ => had ⟨y, x⟩)
  exact List.chain'_reverse.mpr h5

theorem pyStrip_eq_self (l : List Char)
    (hh : ∀ c, l.head? = some c → isPySpace c = false)
    (hl : ∀ c, l.getLast? = some c → isPySpace c = false) : pyStrip l = l := by
  unfold pyStrip
  rw [dropWhile_eq_self _ _ hh]
  rw [dropWhile_eq_self, List.reverse_reverse]
  intro c hc
  rw [List.head?_reverse] at hc
  exact hl c hc

/-! ## Lemmas: locale suffix -/

theorem locTailEn_mem {r r' : List Char} (h : locTailEn r = some r') : '-' ∈ r := by
  unfold locTailEn at h
  split at h
  case _ r5 heq =>
    split at h
    case _ r7 heq2 =>
      have h1 : '-' ∈ r5.dropWhile isPySpace := by rw [heq2]; exact List.mem_cons_self _ _
      have h2 : '-' ∈ r5 := List.IsSuffix.mem h1 (List.dropWhile_suffix _)
      have h3 : '-' ∈ r.dropWhile isPySpace := by
        rw [heq]; exact List.mem_cons_of_mem _ (List.mem_cons_of_mem _ h2)
      exact List.IsSuffix.mem h3 (List.dropWhile_suffix _)
    case _ => exact absurd h (by simp)
  case _ => exact absurd h (by simp)

theorem locTail_mem {r r' : List Char} (h : locTail r = some r') : '-' ∈ r ∨ '_' ∈ r := by
  unfold locTail at h
  split at h
  case _ r2 heq =>
    simp only at h
    have hsub : ∀ x : Char, x ∈ r2.dropWhile isPySpace → x ∈ r := by
      intro x hx
      have h1 : x ∈ r2 := List.IsSuffix.mem hx (List.dropWhile_suffix _)
      have h2 : x ∈ r.dropWhile isPySpace := by
        rw [heq]; exact List.mem_cons_of_mem _ (List.mem_cons_of_mem _ h1)
      exact List.IsSuffix.mem h2 (List.dropWhile_suffix _)
    split at h
    case _ r4 heq2 =>
      exact Or.inl (hsub '-' (by rw [heq2]; exact List.mem_cons_self _ _))
    case _ r4 heq2 =>
      exact Or.inr (hsub '_' (by rw [heq2]; exact List.mem_cons_self _ _))
    case _ =>
      split at h
      · exact Or.inl (hsub '-' (locTailEn_mem h))
      · exact absurd h (by simp)
  case _ => exact absurd h (by simp)

theorem stripLocale_eq_self {l : List Char} (hd : '-' ∉ l) (hu : '_' ∉ l) :
    stripLocale l = l := by
  unfold stripLocale
  split
  case _ rest heq =>
    rcases locTail_mem heq with h | h
    · exact absurd (List.mem_reverse.mp h) hd
    · exact absurd (List.mem_reverse.mp h) hu
  case _ => rfl

/-! ## Lemmas: map -/

theorem map_eq_self_of (f : Char → Char) :
    ∀ (l : List Char), (∀ c ∈ l, f c = c) → l.map f = l := by
  intro l
  induction l with
  | nil => intro _; rfl
  | cons a t ih =>
    intro h
    simp only [List.map_cons, h a (List.mem_cons_self _ _)]
    rw [ih (fun c hc => h c (List.mem_cons_of_mem _ hc))]

/-! ## The normaliser's output is canonical, and canonical input is fixed -/

theorem canonical_normChars (l : List Char) : Canonical (normChars l) := by
  have hform : normChars l =
      pyStrip (collapseRuns isPySpace (collapseRuns isOther (collapseRuns isSep
        ((stripLocale ((pyStrip (l.map nbspFix)).map toLowerPy)).map dashFix)))) := rfl
  rw [hform]
  set x5 := collapseRuns isOther (collapseRuns isSep
    ((stripLocale ((pyStrip (l.map nbspFix)).map toLowerPy)).map dashFix)) with hx5
  refine ⟨?_, ?_, ?_, ?_⟩
  · intro c hc
    have h1 := mem_collapseAux isPySpace _ _ _ (mem_of_mem_pyStrip hc)
    rcases h1 with h1 | ⟨h1, h2⟩
    · exact Or.inr h1
    · rcases mem_collapseAux isOther _ _ _ h1 with h3 | ⟨_, h4⟩
      · exact Or.inr h3
      · left
        simp only [isOther, Bool.not_eq_false', Bool.or_eq_true] at h4
        rcases h4 with h4 | h4
        · exact h4
        · rw [h4] at h2; exact absurd h2 (by simp)
  · exact pyStrip_chain' (collapseAux_chain isPySpace x5 false).1
  · exact fun c => pyStrip_head? _ c
  · exact fun c => pyStrip_getLast? _ c

theorem normChars_of_canonical {l : List Char} (h : Canonical l) : normChars l = l := by
  obtain ⟨hmem, hch, hh, hl⟩ := h
  have fact : ∀ c ∈ l, nbspFix c = c ∧ toLowerPy c = c ∧ dashFix c = c ∧ isSep c = false ∧
      isOther c = false ∧ (isPySpace c = true → c = ' ') ∧ c ≠ '-' ∧ c ≠ '_' :=
    fun c hc => allowed_char c (hmem c hc)
  have hform : normChars l =
      pyStrip (collapseRuns isPySpace (collapseRuns isOther (collapseRuns isSep
        ((stripLocale ((pyStrip (l.map nbspFix)).map toLowerPy)).map dashFix)))) := rfl
  rw [hform]
  have e1 : l.map nbspFix = l := map_eq_self_of _ l (fun c hc => (fact c hc).1)
  rw [e1]
  have hhs : ∀ c, l.head? = some c → isPySpace c = false := hh
  have e2 : pyStrip l = l := pyStrip_eq_self l hh hl
  rw [e2]
  have e3 : l.map toLowerPy = l := map_eq_self_of _ l (fun c hc => (fact c hc).2.1)
  rw [e3]
  have e4 : stripLocale l = l := by
    refine stripLocale_eq_self ?_ ?_
    · intro hmem'; exact (fact _ hmem').2.2.2.2.2.2.1 rfl
    · intro hmem'; exact (fact _ hmem').2.2.2.2.2.2.2 rfl
  rw [e4]
  have e5 : l.map dashFix = l := map_eq_self_of _ l (fun c hc => (fact c hc).2.2.1)
  rw [e5]
  have e6 : collapseRuns isSep l = l :=
    collapseAux_eq_self_of_none isSep l (fun c hc => (fact c hc).2.2.2.1) false
  rw [show collapseRuns isSep l = collapseAux isSep false l from rfl] at e6
  rw [show collapseRuns isSep l = collapseAux isSep false l from rfl, e6]
  have e7 : collapseRuns isOther l = l :=
    collapseAux_eq_self_of_none isOther l (fun c hc => (fact c hc).2.2.2.2.1) false
  rw [show collapseRuns isOther l = collapseAux isOther false l from rfl] at e7
  rw [show collapseRuns isOther l = collapseAux isOther false l from rfl, e7]
  have e8 : collapseRuns isPySpace l = l :=
    collapseAux_eq_self isPySpace l hch (fun c hc => (fact c hc).2.2.2.2.2.1)
  rw [show collapseRuns isPySpace l = collapseAux isPySpace false l from rfl] at e8
  rw [show collapseRuns isPySpace l = collapseAux isPySpace false l from rfl, e8]
  exact pyStrip_eq_self l hh hl

/-- C8: the text normaliser is idempotent: for every string `s`,
`norm (norm s) = norm s`. -/
theorem norm_idempotent (s : String) : norm (norm s) = norm s := by
  show String.mk (normChars (String.mk (normChars s.data)).data) = String.mk (normChars s.data)
  have : (String.mk (normChars s.data)).data = normChars s.data := rfl
  rw [this, normChars_of_canonical (canonical_normChars s.data)]

/-! ## Lemmas: the Header Resolver -/

theorem keepAux_spec :
    ∀ (rest pre seen : List String),
      (∀ s, s ∈ seen ↔ (s ≠ "" ∧ ∃ g ∈ pre, norm g = s)) →
      keepAux pre.length seen rest =
        ((rest.enumFrom pre.length).filter (keptCond (pre ++ rest))).map
          (fun q => (q.1, if q.2 = "" then "col_" ++ toString (q.1 + 1) else q.2)) := by
  intro rest
  induction rest with
  | nil => intro pre seen _; simp [keepAux]
  | cons h r ih =>
    intro pre seen hinv
    have hlist : (pre ++ [h]) ++ r = pre ++ h :: r := by
      rw [List.append_assoc]; rfl
    have hlen : (pre ++ [h]).length = pre.length + 1 := by simp
    have htake : (pre ++ h :: r).take pre.length = pre := List.take_left pre (h :: r)
    have henum : (h :: r).enumFrom pre.length =
        (pre.length, h) :: r.enumFrom (pre.length + 1) := rfl
    by_cases h0 : norm h = ""
    · have hinv' : ∀ s, s ∈ seen ↔ (s ≠ "" ∧ ∃ g ∈ pre ++ [h], norm g = s) := by
        intro s
        rw [hinv s]
        constructor
        · rintro ⟨hs, g, hg, hgs⟩; exact ⟨hs, g, List.mem_append_left _ hg, hgs⟩
        · rintro ⟨hs, g, hg, hgs⟩
          rcases List.mem_append.mp hg with hg | hg
          · exact ⟨hs, g, hg, hgs⟩
          · rw [List.mem_singleton] at hg; subst hg
            exact absurd (by rw [← hgs, h0]) hs
      have hcond : keptCond (pre ++ h :: r) (pre.length, h) = false := by
        simp [keptCond, h0]
      rw [henum, List.filter_cons, hcond]
      simp only [Bool.false_eq_true, if_false]
      have hL : keepAux pre.length seen (h :: r) = keepAux (pre.length + 1) seen r := by
        simp [keepAux, h0]
      rw [hL, ← hlen, ih (pre ++ [h]) seen hinv', hlist]
    · by_cases hseen : norm h ∈ seen
      · obtain ⟨-, g, hg, hgs⟩ := (hinv _).mp hseen
        have hcond : keptCond (pre ++ h :: r) (pre.length, h) = false := by
          simp only [keptCond, htake, Bool.and_eq_false_iff]
          right
          rw [List.all_eq_false]
          exact ⟨g, hg, by simp [hgs]⟩
        rw [henum, List.filter_cons, hcond]
        simp only [Bool.false_eq_true, if_false]
        have hinv' : ∀ s, s ∈ seen ↔ (s ≠ "" ∧ ∃ g ∈ pre ++ [h], norm g = s) := by
          intro s
          rw [hinv s]
          constructor
          · rintro ⟨hs, g', hg', hgs'⟩; exact ⟨hs, g', List.mem_append_left _ hg', hgs'⟩
          · rintro ⟨hs, g', hg', hgs'⟩
            rcases List.mem_append.mp hg' with hg' | hg'
            · exact ⟨hs, g', hg', hgs'⟩
            · rw [List.mem_singleton] at hg'; subst hg'
              rw [← hgs']
              exact ⟨h0, g, hg, hgs⟩
        have hL : keepAux pre.length seen (h :: r) = keepAux (pre.length + 1) seen r := by
          simp [keepAux, h0, hseen]
        rw [hL, ← hlen, ih (pre ++ [h]) seen hinv', hlist]
      · have hcond : keptCond (pre ++ h :: r) (pre.length, h) = true := by
          simp only [keptCond, htake, Bool.and_eq_true]
          refine ⟨by simpa using h0, ?_⟩
          rw [List.all_eq_true]
          intro g hg
          simp only [decide_eq_true_eq]
          intro hgs
          exact hseen ((hinv _).mpr ⟨h0, g, hg, hgs⟩)
        rw [henum, List.filter_cons, hcond]
        simp only [if_true, List.map_cons]
        have hinv' : ∀ s, s ∈ norm h :: seen ↔ (s ≠ "" ∧ ∃ g ∈ pre ++ [h], norm g = s) := by
          intro s
          rw [List.mem_cons, hinv s]
          constructor
          · rintro (rfl | ⟨hs, g', hg', hgs'⟩)
            · exact ⟨h0, h, List.mem_append_right _ (List.mem_singleton.mpr rfl), rfl⟩
            · exact ⟨hs, g', List.mem_append_left _ hg', hgs'⟩
          · rintro ⟨hs, g', hg', hgs'⟩
            rcases List.mem_append.mp hg' with hg' | hg'
            · exact Or.inr ⟨hs, g', hg', hgs'⟩
            · rw [List.mem_singleton] at hg'; subst hg'
              exact Or.inl hgs'.symm
        have hL : keepAux pre.length seen (h :: r) =
            (pre.length, if h = "" then "col_" ++ toString (pre.length + 1) else h) ::
              keepAux (pre.length + 1) (norm h :: seen) r := by
          simp [keepAux, h0, hseen]
        rw [hL, ← hlen, ih (pre ++ [h]) (norm h :: seen) hinv', hlist]

/-- C6: the Header Resolver drops blank-normalised headers and
duplicates-by-normalised-form (first occurrence wins), preserving the
relative order of retained columns; on the raw row `["A", "", "A", "B"]` it
keeps names `["A", "B"]` at original 0-based indices `[0, 3]`. -/
theorem header_resolver_spec :
    (∀ hs : List String, keepHeaders hs = specKeep hs) ∧
    keepHeaders (cleanHeaderRow ["A", "", "A", "B"]) = [(0, "A"), (3, "B")] := by
  constructor
  · intro hs
    have h := keepAux_spec hs [] [] (by simp)
    simpa [keepHeaders, specKeep, List.enum] using h
  · rfl

/-! ## Lemmas: the Column Mapping Engine -/

theorem firstAliasMatch_cons (df : OnDf) (a : String) (rest : List String) :
    firstAliasMatch df (a :: rest) =
      match seriesByAlias df (norm a) with
      | some vals => some (a, vals)
      | none => firstAliasMatch df rest := rfl

theorem firstAliasMatch_append (df : OnDf) :
    ∀ (l1 l2 : List String),
      firstAliasMatch df (l1 ++ l2) =
        match firstAliasMatch df l1 with
        | some r => some r
        | none => firstAliasMatch df l2 := by
  intro l1 l2
  induction l1 with
  | nil => rfl
  | cons a t ih =>
    show firstAliasMatch df (a :: (t ++ l2)) = _
    rw [firstAliasMatch_cons, firstAliasMatch_cons]
    cases seriesByAlias df (norm a) with
    | none => simpa using ih
    | some v => rfl

theorem firstAliasMatch_iff (df : OnDf) :
    ∀ (l : List String) (a : String) (vals : List String),
      firstAliasMatch df l = some (a, vals) ↔
        ∃ i, l.get? i = some a ∧ seriesByAlias df (norm a) = some vals ∧
          ∀ j, j < i → ∀ b, l.get? j = some b → seriesByAlias df (norm b) = none := by
  intro l
  induction l with
  | nil =>
    intro a vals
    simp [firstAliasMatch]
  | cons x t ih =>
    intro a vals
    rw [firstAliasMatch_cons]
    cases hsba : seriesByAlias df (norm x) with
    | some v =>
      simp only [Option.some.injEq, Prod.mk.injEq]
      constructor
      · rintro ⟨rfl, rfl⟩
        exact ⟨0, rfl, hsba, fun j hj => absurd hj (Nat.not_lt_zero j)⟩
      · rintro ⟨i, hget, hs, hprev⟩
        cases i with
        | zero =>
          simp only [List.get?_cons_zero, Option.some.injEq] at hget
          subst hget
          rw [hsba] at hs
          exact ⟨rfl, (Option.some.injEq _ _).mp hs⟩
        | succ i' =>
          have := hprev 0 (Nat.succ_pos i') x rfl
          rw [this] at hsba
          exact absurd hsba (by simp)
    | none =>
      rw [ih a vals]
      constructor
      · rintro ⟨i, hget, hs, hprev⟩
        refine ⟨i + 1, by simpa using hget, hs, ?_⟩
        intro j hj b hb
        cases j with
        | zero =>
          simp only [List.get?_cons_zero, Option.some.injEq] at hb
          subst hb; exact hsba
        | succ j' => exact hprev j' (by omega) b (by simpa using hb)
      · rintro ⟨i, hget, hs, hprev⟩
        cases i with
        | zero =>
          simp only [List.get?_cons_zero, Option.some.injEq] at hget
          subst hget
          rw [hsba] at hs
          exact absurd hs (by simp)
        | succ i' =>
          refine ⟨i', by simpa using hget, hs, ?_⟩
          intro j hj b hb
          exact hprev (j + 1) (by omega) b (by simpa using hb)

theorem seriesByAlias_empty_key (df : OnDf) (hdf : ∀ p ∈ df, norm p.1 ≠ "") :
    seriesByAlias df "" = none := by
  unfold seriesByAlias
  rw [List.find?_eq_none.mpr]
  · rfl
  · intro p hp
    simp only [decide_eq_true_eq]
    exact hdf p (List.mem_reverse.mp hp)

theorem colOutcome_ok_iff (df : OnDf) (M : AliasTable) (d : String) (a : String)
    (vals : List String) :
    colOutcome df M d = ColOut.ok a vals ↔
      firstAliasMatch df (aliasList M d) = some (a, vals) := by
  unfold colOutcome
  cases hfm : firstAliasMatch df (aliasList M d) with
  | some r =>
    cases r with
    | mk a' vals' => simp
  | none =>
    simp only
    split <;> simp

theorem firstAliasMatch_aliasList (df : OnDf) (M : AliasTable) (d : String)
    (hdf : ∀ p ∈ df, norm p.1 ≠ "") :
    firstAliasMatch df (aliasList M d) =
      firstAliasMatch df (mapGet M (norm d) ++ [d]) := by
  by_cases hd : d = ""
  · subst hd
    have h2 : seriesByAlias df (norm "") = none := seriesByAlias_empty_key df hdf
    have h3 : firstAliasMatch df [""] = none := by
      rw [firstAliasMatch_cons, h2]
      rfl
    have h1 : aliasList M "" = mapGet M (norm "") := by
      simp [aliasList]
    rw [h1, firstAliasMatch_append df (mapGet M (norm "")) [""], h3]
    cases firstAliasMatch df (mapGet M (norm "")) <;> rfl
  · simp [aliasList, hd]

/-- C1: the Mapping Engine resolves a master column to the first alias of the
candidate list (the alias-table entry at the normalised display label with
the raw display label as final fallback) whose normalised form equals the
normalised form of some onboarding column; earlier candidates all fail to
match, so resolution is priority-ordered and similarity scores play no part
in it. -/
theorem mapping_engine_alias_priority (df : OnDf) (M : AliasTable) (d : String)
    (a : String) (vals : List String) (hdf : ∀ p ∈ df, norm p.1 ≠ "") :
    colOutcome df M d = ColOut.ok a vals ↔
      ∃ i, (mapGet M (norm d) ++ [d]).get? i = some a ∧
        seriesByAlias df (norm a) = some vals ∧
        ∀ j, j < i → ∀ b, (mapGet M (norm d) ++ [d]).get? j = some b →
          seriesByAlias df (norm b) = none := by
  rw [colOutcome_ok_iff, firstAliasMatch_aliasList df M d hdf, firstAliasMatch_iff]

/-- Witness for C1, realising the spec's alias-priority test: alias list
`["X", "Y"]` for master column `"Foo"`, onboarding columns `"Y"` and `"X"`
both present; the first alias `"X"` wins. -/
theorem mapping_engine_alias_priority_witness :
    colOutcome [("Y", ["1"]), ("X", ["2"])] [("foo", ["X", "Y"])] "Foo" =
      ColOut.ok "X" ["2"] := by
  refine (mapping_engine_alias_priority [("Y", ["1"]), ("X", ["2"])] [("foo", ["X", "Y"])]
    "Foo" "X" ["2"] (by decide)).mpr ⟨0, by decide, by decide, ?_⟩
  intro j hj
  exact absurd hj (Nat.not_lt_zero j)

/-! ## Lemmas: the Row Transfer Engine's cell writes -/

theorem setCell_ne (ws : Sheet) (r c : Nat) (v : String) (r' c' : Nat)
    (h : (r', c') ≠ (r, c)) : setCell ws r c v (r', c') = ws (r', c') := by
  simp [setCell, h]

theorem writeColsGo_step (entries : List (Nat × ColOut)) (i target : Nat)
    (c0 : Nat) (rest : List Nat) (ws : Sheet) :
    writeColsGo entries i target (c0 :: rest) ws =
      writeColsGo entries i target rest
        (match lookupEntry entries (c0 + 1) with
          | some .fixedList => setCell ws target (c0 + 1) "List"
          | some (.ok _ vals) =>
            if i < vals.length then setCell ws target (c0 + 1) (vals.getD i "") else ws
          | _ => ws) := rfl

theorem writeColsGo_step_other (entries : List (Nat × ColOut)) (i target : Nat)
    (c0 : Nat) (ws : Sheet) (r c : Nat) (h : (r, c) ≠ (target, c0 + 1)) :
    (match lookupEntry entries (c0 + 1) with
      | some .fixedList => setCell ws target (c0 + 1) "List"
      | some (.ok _ vals) =>
        if i < vals.length then setCell ws target (c0 + 1) (vals.getD i "") else ws
      | _ => ws) (r, c) = ws (r, c) := by
  cases hle : lookupEntry entries (c0 + 1) with
  | none => rfl
  | some co =>
    cases co with
    | fixedList => exact setCell_ne ws target (c0 + 1) _ r c h
    | ok a vals =>
      by_cases hi : i < vals.length
      · simp only [if_pos hi]
        exact setCell_ne ws target (c0 + 1) _ r c h
      · simp only [if_neg hi]
    | noMatch s => rfl

theorem writeColsGo_row_frame (entries : List (Nat × ColOut)) (i target : Nat) :
    ∀ (cols : List Nat) (ws : Sheet) (r c : Nat), r ≠ target →
      writeColsGo entries i target cols ws (r, c) = ws (r, c) := by
  intro cols
  induction cols with
  | nil => intro ws r c _; rfl
  | cons c0 rest ih =>
    intro ws r c hr
    rw [writeColsGo_step, ih _ r c hr, writeColsGo_step_other]
    intro hcon
    exact hr (congrArg Prod.fst hcon)

theorem writeColsGo_col_frame (entries : List (Nat × ColOut)) (i target : Nat) :
    ∀ (cols : List Nat) (ws : Sheet) (r c : Nat), (∀ c0 ∈ cols, c0 + 1 ≠ c) →
      writeColsGo entries i target cols ws (r, c) = ws (r, c) := by
  intro cols
  induction cols with
  | nil => intro ws r c _; rfl
  | cons c0 rest ih =>
    intro ws r c hc
    rw [writeColsGo_step, ih _ r c (fun x hx => hc x (List.mem_cons_of_mem _ hx)),
      writeColsGo_step_other]
    intro hcon
    exact hc c0 (List.mem_cons_self _ _) (congrArg Prod.snd hcon).symm

theorem writeColsGo_none (entries : List (Nat × ColOut)) (i target : Nat)
    (c : Nat) (hle : lookupEntry entries c = none) :
    ∀ (cols : List Nat) (ws : Sheet) (r : Nat),
      writeColsGo entries i target cols ws (r, c) = ws (r, c) := by
  intro cols
  induction cols with
  | nil => intro ws r; rfl
  | cons c0 rest ih =>
    intro ws r
    rw [writeColsGo_step, ih]
    by_cases hc : c0 + 1 = c
    · rw [hc, hle]
    · exact writeColsGo_step_other entries i target c0 ws r c
        (fun hcon => hc ((congrArg Prod.snd hcon).symm))

theorem writeColsGo_fixed (entries : List (Nat × ColOut)) (i target : Nat)
    (c : Nat) (hle : lookupEntry entries c = some ColOut.fixedList) :
    ∀ (cols : List Nat) (ws : Sheet),
      ((∃ c0 ∈ cols, c0 + 1 = c) ∨ ws (target, c) = "List") →
      writeColsGo entries i target cols ws (target, c) = "List" := by
  intro cols
  induction cols with
  | nil =>
    intro ws h
    rcases h with ⟨c0, hc0, _⟩ | h
    · exact absurd hc0 (List.not_mem_nil c0)
    · exact h
  | cons c0 rest ih =>
    intro ws h
    rw [writeColsGo_step]
    by_cases hc : c0 + 1 = c
    · apply ih
      right
      rw [hc, hle]
      simp [setCell]
    · apply ih
      rcases h with ⟨c1, hc1, hc1c⟩ | h
      · rcases List.mem_cons.mp hc1 with rfl | hc1
        · exact absurd hc1c hc
        · exact Or.inl ⟨c1, hc1, hc1c⟩
      · right
        rw [writeColsGo_step_other entries i target c0 ws target c
            (fun hcon => hc ((congrArg Prod.snd hcon).symm))]
        exact h

theorem writeRowCells_fixed (entries : List (Nat × ColOut)) (uc i target : Nat)
    (c : Nat) (hle : lookupEntry entries c = some ColOut.fixedList)
    (h1 : 1 ≤ c) (h2 : c ≤ uc) (ws : Sheet) :
    writeRowCells entries uc i target ws (target, c) = "List" := by
  apply writeColsGo_fixed entries i target c hle
  left
  exact ⟨c - 1, List.mem_range.mpr (by omega), by omega⟩

/-! ## Lemmas: the Row Transfer Engine's outer loop -/

theorem writeLoop_row_frame (entries : List (Nat × ColOut)) (uc : Nat) :
    ∀ (rows : List Nat) (b w : Nat) (ws : Sheet) (r c : Nat), r < 3 + w →
      (writeLoop entries uc rows b w ws).1 (r, c) = ws (r, c) := by
  intro rows
  induction rows with
  | nil => intro b w ws r c _; rfl
  | cons i rest ih =>
    intro b w ws r c hr
    by_cases hd : rowHasAnyData entries i
    · show (writeLoop entries uc (i :: rest) b w ws).1 (r, c) = ws (r, c)
      rw [show writeLoop entries uc (i :: rest) b w ws =
        writeLoop entries uc rest 0 (w + 1)
          (writeRowCells entries uc i (3 + w) ws) by simp [writeLoop, hd]]
      rw [ih 0 (w + 1) _ r c (by omega)]
      exact writeColsGo_row_frame entries i (3 + w) _ ws r c (by omega)
    · by_cases hb : b + 1 ≥ 50
      · rw [show writeLoop entries uc (i :: rest) b w ws = (ws, w) by
          simp [writeLoop, hd, hb]]
      · rw [show writeLoop entries uc (i :: rest) b w ws =
          writeLoop entries uc rest (b + 1) w ws by simp [writeLoop, hd, hb]]
        exact ih (b + 1) w ws r c hr

theorem writeLoop_col_frame (entries : List (Nat × ColOut)) (uc : Nat) :
    ∀ (rows : List Nat) (b w : Nat) (ws : Sheet) (r c : Nat), (c = 0 ∨ uc < c) →
      (writeLoop entries uc rows b w ws).1 (r, c) = ws (r, c) := by
  intro rows
  induction rows with
  | nil => intro b w ws r c _; rfl
  | cons i rest ih =>
    intro b w ws r c hc
    by_cases hd : rowHasAnyData entries i
    · rw [show writeLoop entries uc (i :: rest) b w ws =
        writeLoop entries uc rest 0 (w + 1)
          (writeRowCells entries uc i (3 + w) ws) by simp [writeLoop, hd]]
      rw [ih 0 (w + 1) _ r c hc]
      apply writeColsGo_col_frame
      intro c0 hc0
      have := List.mem_range.mp hc0
      omega
    · by_cases hb : b + 1 ≥ 50
      · rw [show writeLoop entries uc (i :: rest) b w ws = (ws, w) by
          simp [writeLoop, hd, hb]]
      · rw [show writeLoop entries uc (i :: rest) b w ws =
          writeLoop entries uc rest (b + 1) w ws by simp [writeLoop, hd, hb]]
        exact ih (b + 1) w ws r c hc

theorem writeLoop_none_col (entries : List (Nat × ColOut)) (uc : Nat)
    (c : Nat) (hle : lookupEntry entries c = none) :
    ∀ (rows : List Nat) (b w : Nat) (ws : Sheet) (r : Nat),
      (writeLoop entries uc rows b w ws).1 (r, c) = ws (r, c) := by
  intro rows
  induction rows with
  | nil => intro b w ws r; rfl
  | cons i rest ih =>
    intro b w ws r
    by_cases hd : rowHasAnyData entries i
    · rw [show writeLoop entries uc (i :: rest) b w ws =
        writeLoop entries uc rest 0 (w + 1)
          (writeRowCells entries uc i (3 + w) ws) by simp [writeLoop, hd]]
      rw [ih 0 (w + 1) _ r]
      exact writeColsGo_none entries i (3 + w) c hle _ ws r
    · by_cases hb : b + 1 ≥ 50
      · rw [show writeLoop entries uc (i :: rest) b w ws = (ws, w) by
          simp [writeLoop, hd, hb]]
      · rw [show writeLoop entries uc (i :: rest) b w ws =
          writeLoop entries uc rest (b + 1) w ws by simp [writeLoop, hd, hb]]
        exact ih (b + 1) w ws r

theorem writeLoop_fixed_col (entries : List (Nat × ColOut)) (uc : Nat)
    (c : Nat) (hle : lookupEntry entries c = some ColOut.fixedList)
    (h1 : 1 ≤ c) (h2 : c ≤ uc) :
    ∀ (rows : List Nat) (b w : Nat) (ws : Sheet) (p : Nat), w ≤ p →
      p < (writeLoop entries uc rows b w ws).2 →
      (writeLoop entries uc rows b w ws).1 (3 + p, c) = "List" := by
  intro rows
  induction rows with
  | nil =>
    intro b w ws p hwp hp
    have heq : (writeLoop entries uc ([] : List Nat) b w ws).2 = w := rfl
    rw [heq] at hp
    exact absurd hp (by omega)
  | cons i rest ih =>
    intro b w ws p hwp hp
    by_cases hd : rowHasAnyData entries i
    · rw [show writeLoop entries uc (i :: rest) b w ws =
        writeLoop entries uc rest 0 (w + 1)
          (writeRowCells entries uc i (3 + w) ws) by simp [writeLoop, hd]] at hp ⊢
      rcases Nat.lt_or_ge p (w + 1) with hlt | hge
      · have hpw : p = w := by omega
        rw [hpw]
        rw [writeLoop_row_frame entries uc rest 0 (w + 1) _ (3 + w) c (by omega)]
        exact writeRowCells_fixed entries uc i (3 + w) c hle h1 h2 ws
      · exact ih 0 (w + 1) _ p hge hp
    · by_cases hb : b + 1 ≥ 50
      · rw [show writeLoop entries uc (i :: rest) b w ws = (ws, w) by
          simp [writeLoop, hd, hb]] at hp
        have heq : ((ws, w) : Sheet × Nat).2 = w := rfl
        rw [heq] at hp
        exact absurd hp (by omega)
      · rw [show writeLoop entries uc (i :: rest) b w ws =
          writeLoop entries uc rest (b + 1) w ws by simp [writeLoop, hd, hb]] at hp ⊢
        exact ih (b + 1) w ws p hwp hp

/-- C2: a master column with no alias match whose display label normalises
to the normalised `"Listing Action (List or Unlist)"` is recorded as the
fixed-value marker, and every row the Row Transfer Engine writes receives
the literal `"List"` in that destination column, independent of any
onboarding data. -/
theorem listing_action_fixed_fill :
    (∀ (df : OnDf) (M : AliasTable) (d : String),
      firstAliasMatch df (aliasList M d) = none →
      norm d = norm listingActionLabel →
      colOutcome df M d = ColOut.fixedList) ∧
    (∀ (entries : List (Nat × ColOut)) (uc : Nat) (rows : List Nat)
        (b w : Nat) (ws : Sheet) (c p : Nat),
      lookupEntry entries c = some ColOut.fixedList → 1 ≤ c → c ≤ uc →
      w ≤ p → p < (writeLoop entries uc rows b w ws).2 →
      (writeLoop entries uc rows b w ws).1 (3 + p, c) = "List") := by
  constructor
  · intro df M d h1 h2
    simp [colOutcome, h1, h2]
  · intro entries uc rows b w ws c p hle h1 h2 hwp hp
    exact writeLoop_fixed_col entries uc c hle h1 h2 rows b w ws p hwp hp

/-- Witness for C2: the master column `"Listing Action (List or Unlist)"`
with no onboarding match becomes the fixed-value marker, and with a mapped
data column alongside, the written destination row receives `"List"`. -/
theorem listing_action_fixed_fill_witness :
    colOutcome [("zz", ["v"])] [] "Listing Action (List or Unlist)" = ColOut.fixedList ∧
    (writeLoop [(1, ColOut.fixedList), (2, ColOut.ok "zz" ["v"])] 2 [0] 0 0
      (fun _ => "")).1 (3 + 0, 1) = "List" := by
  constructor
  · exact listing_action_fixed_fill.1 [("zz", ["v"])] [] "Listing Action (List or Unlist)"
      (by decide) (by decide)
  · exact listing_action_fixed_fill.2 [(1, ColOut.fixedList), (2, ColOut.ok "zz" ["v"])]
      2 [0] 0 0 (fun _ => "") 1 0 (by decide) (by decide) (by decide) (by decide) (by decide)

/-! ## Lemmas: the blank-streak skeleton of the write loop -/

theorem writeLoop_count (entries : List (Nat × ColOut)) (uc : Nat) :
    ∀ (rows : List Nat) (b w : Nat) (ws : Sheet),
      (writeLoop entries uc rows b w ws).2 =
        w + (transferAux (rowHasAnyData entries) rows b).length := by
  intro rows
  induction rows with
  | nil => intro b w ws; simp [writeLoop, transferAux]
  | cons i rest ih =>
    intro b w ws
    by_cases hd : rowHasAnyData entries i
    · rw [show writeLoop entries uc (i :: rest) b w ws =
        writeLoop entries uc rest 0 (w + 1)
          (writeRowCells entries uc i (3 + w) ws) by simp [writeLoop, hd]]
      rw [ih 0 (w + 1) _]
      simp [transferAux, hd]
      omega
    · by_cases hb : b + 1 ≥ 50
      · rw [show writeLoop entries uc (i :: rest) b w ws = (ws, w) by
          simp [writeLoop, hd, hb]]
        simp [transferAux, hd, hb]
      · rw [show writeLoop entries uc (i :: rest) b w ws =
          writeLoop entries uc rest (b + 1) w ws by simp [writeLoop, hd, hb]]
        rw [ih (b + 1) w ws]
        simp [transferAux, hd, hb]

theorem transferAux_mem (hasData : Nat → Bool) :
    ∀ (rows : List Nat) (b i : Nat), i ∈ transferAux hasData rows b →
      i ∈ rows ∧ hasData i = true := by
  intro rows
  induction rows with
  | nil => intro b i h; simp [transferAux] at h
  | cons x rest ih =>
    intro b i h
    by_cases hd : hasData x
    · simp only [transferAux, hd, if_true] at h
      rcases List.mem_cons.mp h with rfl | h
      · exact ⟨List.mem_cons_self _ _, hd⟩
      · obtain ⟨h1, h2⟩ := ih 0 i h
        exact ⟨List.mem_cons_of_mem _ h1, h2⟩
    · by_cases hb : b + 1 ≥ 50
      · simp [transferAux, hd, hb] at h
      · simp only [transferAux, hd, hb] at h
        simp only [Bool.false_eq_true, if_false, if_neg hb] at h
        obtain ⟨h1, h2⟩ := ih (b + 1) i h
        exact ⟨List.mem_cons_of_mem _ h1, h2⟩

theorem transferAux_skip_blanks (hasData : Nat → Bool) :
    ∀ (pre : List Nat) (l : List Nat) (b : Nat),
      (∀ j ∈ pre, hasData j = false) → b + pre.length < 50 →
      transferAux hasData (pre ++ l) b = transferAux hasData l (b + pre.length) := by
  intro pre
  induction pre with
  | nil => intro l b _ _; simp
  | cons x rest ih =>
    intro l b hblank hlt
    have hx : hasData x = false := hblank x (List.mem_cons_self _ _)
    have hlen : (x :: rest).length = rest.length + 1 := rfl
    rw [hlen] at hlt
    have hb : ¬(b + 1 ≥ 50) := by omega
    show transferAux hasData (x :: (rest ++ l)) b = _
    rw [show transferAux hasData (x :: (rest ++ l)) b =
      transferAux hasData (rest ++ l) (b + 1) by simp [transferAux, hx, hb]]
    rw [ih l (b + 1) (fun j hj => hblank j (List.mem_cons_of_mem _ hj)) (by omega)]
    congr 1
    omega

theorem transferAux_split (hasData : Nat → Bool) :
    ∀ (l1 l2 : List Nat) (b : Nat),
      transferAux hasData (l1 ++ l2) b =
        transferAux hasData l1 b ++
          (match blanksAfter hasData l1 b with
            | some b' => transferAux hasData l2 b'
            | none => []) := by
  intro l1
  induction l1 with
  | nil => intro l2 b; simp [transferAux, blanksAfter]
  | cons x rest ih =>
    intro l2 b
    by_cases hd : hasData x
    · show transferAux hasData (x :: (rest ++ l2)) b = _
      rw [show transferAux hasData (x :: (rest ++ l2)) b =
        x :: transferAux hasData (rest ++ l2) 0 by simp [transferAux, hd]]
      rw [ih l2 0]
      rw [show transferAux hasData (x :: rest) b =
        x :: transferAux hasData rest 0 by simp [transferAux, hd]]
      rw [show blanksAfter hasData (x :: rest) b =
        blanksAfter hasData rest 0 by simp [blanksAfter, hd]]
      rfl
    · by_cases hb : b + 1 ≥ 50
      · show transferAux hasData (x :: (rest ++ l2)) b = _
        rw [show transferAux hasData (x :: (rest ++ l2)) b = [] by
          simp [transferAux, hd, hb]]
        rw [show transferAux hasData (x :: rest) b = [] by simp [transferAux, hd, hb]]
        rw [show blanksAfter hasData (x :: rest) b = none by simp [blanksAfter, hd, hb]]
        rfl
      · show transferAux hasData (x :: (rest ++ l2)) b = _
        rw [show transferAux hasData (x :: (rest ++ l2)) b =
          transferAux hasData (rest ++ l2) (b + 1) by simp [transferAux, hd, hb]]
        rw [ih l2 (b + 1)]
        rw [show transferAux hasData (x :: rest) b =
          transferAux hasData rest (b + 1) by simp [transferAux, hd, hb]]
        rw [show blanksAfter hasData (x :: rest) b =
          blanksAfter hasData rest (b + 1) by simp [blanksAfter, hd, hb]]

theorem blanksAfter_lt (hasData : Nat → Bool) :
    ∀ (l : List Nat) (b b' : Nat), b < 50 → blanksAfter hasData l b = some b' →
      b' < 50 := by
  intro l
  induction l with
  | nil =>
    intro b b' hb h
    simp only [blanksAfter, Option.some.injEq] at h
    omega
  | cons x rest ih =>
    intro b b' hb h
    by_cases hd : hasData x
    · simp only [blanksAfter, hd, if_true] at h
      exact ih 0 b' (by omega) h
    · by_cases hstop : b + 1 ≥ 50
      · simp [blanksAfter, hd, hstop] at h
      · simp only [blanksAfter, hd, hstop] at h
        simp only [Bool.false_eq_true, if_false, if_neg hstop] at h
        exact ih (b + 1) b' (by omega) h

theorem transferAux_all_blank (hasData : Nat → Bool) :
    ∀ (run : List Nat) (b : Nat), b < 50 → 50 ≤ b + run.length →
      (∀ j ∈ run, hasData j = false) →
      transferAux hasData run b = [] ∧ blanksAfter hasData run b = none := by
  intro run
  induction run with
  | nil =>
    intro b hb hlen _
    simp only [List.length_nil] at hlen
    omega
  | cons x rest ih =>
    intro b hb hlen hblank
    have hx : hasData x = false := hblank x (List.mem_cons_self _ _)
    by_cases hstop : b + 1 ≥ 50
    · constructor
      · simp [transferAux, hx, hstop]
      · simp [blanksAfter, hx, hstop]
    · have hlen' : 50 ≤ (b + 1) + rest.length := by
        simp only [List.length_cons] at hlen
        omega
      obtain ⟨h1, h2⟩ := ih (b + 1) (by omega) hlen'
        (fun j hj => hblank j (List.mem_cons_of_mem _ hj))
      constructor
      · rw [show transferAux hasData (x :: rest) b =
          transferAux hasData rest (b + 1) by simp [transferAux, hx, hstop]]
        exact h1
      · rw [show blanksAfter hasData (x :: rest) b =
          blanksAfter hasData rest (b + 1) by simp [blanksAfter, hx, hstop]]
        exact h2

theorem range'_append_one (s m n : Nat) :
    List.range' s m ++ List.range' (s + m) n = List.range' s (m + n) := by
  have h := List.range'_append s m n 1
  rw [Nat.one_mul] at h
  rw [Nat.add_comm n m] at h
  exact h

/-- C7: a row is droppable exactly when every mapped non-fixed-value source
column is blank at it (fixed-value columns never count); with the streak
limit 50, a run of 49 droppable rows (entered with a fresh streak) does not
stop the transfer and a following data row is written, while any 50
consecutive droppable rows stop it, so no row beyond such a run is ever
written; the loop's written count is the length of this written sequence. -/
theorem blank_streak_behaviour :
    (∀ (entries : List (Nat × ColOut)) (i : Nat),
      rowHasAnyData entries i = false ↔
        ∀ (c : Nat) (a : String) (vals : List String), (c, ColOut.ok a vals) ∈ entries →
          stripStr (if i < vals.length then vals.getD i "" else "") = "") ∧
    (∀ (hasData : Nat → Bool) (pre : List Nat) (x : Nat) (rest : List Nat),
      pre.length = 49 → (∀ j ∈ pre, hasData j = false) → hasData x = true →
      x ∈ transferAux hasData (pre ++ x :: rest) 0) ∧
    (∀ (hasData : Nat → Bool) (n p : Nat),
      (∀ j, p ≤ j → j < p + 50 → hasData j = false) →
      ∀ k, p + 50 ≤ k → k ∉ transferAux hasData (List.range n) 0) ∧
    (∀ (entries : List (Nat × ColOut)) (uc : Nat) (rows : List Nat)
        (b w : Nat) (ws : Sheet),
      (writeLoop entries uc rows b w ws).2 =
        w + (transferAux (rowHasAnyData entries) rows b).length) := by
  refine ⟨?_, ?_, ?_, ?_⟩
  · intro entries i
    unfold rowHasAnyData
    rw [List.any_eq_false]
    constructor
    · intro h c a vals hmem
      have := h (c, ColOut.ok a vals) hmem
      simpa using this
    · intro h p hp
      rcases p with ⟨c, co⟩
      cases co with
      | ok a vals => simpa using h c a vals hp
      | fixedList => simp
      | noMatch s => simp
  · intro hasData pre x rest hlen hblank hx
    rw [transferAux_skip_blanks hasData pre (x :: rest) 0 hblank (by omega)]
    rw [show transferAux hasData (x :: rest) (0 + pre.length) =
      x :: transferAux hasData rest 0 by simp [transferAux, hx]]
    exact List.mem_cons_self _ _
  · intro hasData n p hblank k hk hmem
    have hk_range : k ∈ List.range n := (transferAux_mem hasData _ 0 k hmem).1
    have hkn : k < n := List.mem_range.mp hk_range
    have e1 : List.range' p 50 ++ List.range' (p + 50) (n - p - 50) =
        List.range' p (50 + (n - p - 50)) := range'_append_one p 50 (n - p - 50)
    have e2 : List.range' 0 p ++ List.range' p (50 + (n - p - 50)) =
        List.range' 0 (p + (50 + (n - p - 50))) := by
      have h := range'_append_one 0 p (50 + (n - p - 50))
      rw [Nat.zero_add] at h
      exact h
    have hsplit1 : List.range n =
        List.range' 0 p ++ (List.range' p 50 ++ List.range' (p + 50) (n - p - 50)) := by
      rw [List.range_eq_range', e1, e2]
      congr 1
      omega
    rw [hsplit1, transferAux_split] at hmem
    rcases List.mem_append.mp hmem with hmem1 | hmem2
    · have := (transferAux_mem hasData _ 0 k hmem1).1
      have := List.mem_range'_1.mp this
      omega
    · rcases hba : blanksAfter hasData (List.range' 0 p) 0 with _ | b'
      · rw [hba] at hmem2; simp at hmem2
      · rw [hba] at hmem2
        simp only at hmem2
        have hb' : b' < 50 := blanksAfter_lt hasData _ 0 b' (by omega) hba
        have hrun : ∀ j ∈ List.range' p 50, hasData j = false := by
          intro j hj
          have := List.mem_range'_1.mp hj
          exact hblank j this.1 this.2
        obtain ⟨hT, hB⟩ := transferAux_all_blank hasData (List.range' p 50) b' hb'
          (by simp) hrun
        rw [transferAux_split, hT, hB] at hmem2
        simp at hmem2
  · intro entries uc rows b w ws
    exact writeLoop_count entries uc rows b w ws

/-- Witness for C7 at concrete inputs: after 49 droppable rows a data row at
index 49 is still written, and with an all-droppable region no row index at
or beyond the 50-streak (such as 55) is ever written. -/
theorem blank_streak_behaviour_witness :
    (49 : Nat) ∈ transferAux (fun i => decide (49 ≤ i)) (List.range 49 ++ 49 :: []) 0 ∧
    (55 : Nat) ∉ transferAux (fun _ => false) (List.range 60) 0 := by
  constructor
  · exact blank_streak_behaviour.2.1 (fun i => decide (49 ≤ i)) (List.range 49) 49 []
      (by decide) (by decide) (by decide)
  · exact blank_streak_behaviour.2.2.1 (fun _ => false) 60 0
      (fun j _ _ => rfl) 55 (by omega)

/-! ## The transfer pass's frame -/

/-- C9 (amended): the transfer pass modifies destination cell values only in
rows at least `out_row_start = 3` and columns `1..usedCols` — every other
cell keeps the template's value; a destination column with no mapping entry
(an unresolved column) is never written at all, so its cells keep the
template's values at every row; consequently it is blank in every written
row whenever the template's cell there is blank (but not otherwise). -/
theorem transfer_frame :
    (∀ (entries : List (Nat × ColOut)) (uc n : Nat) (ws : Sheet) (r c : Nat),
      r < 3 ∨ c = 0 ∨ uc < c →
      (transferRows entries uc n ws).1 (r, c) = ws (r, c)) ∧
    (∀ (entries : List (Nat × ColOut)) (uc n : Nat) (ws : Sheet) (r c : Nat),
      lookupEntry entries c = none →
      (transferRows entries uc n ws).1 (r, c) = ws (r, c)) ∧
    (∀ (entries : List (Nat × ColOut)) (uc n : Nat) (ws : Sheet) (r c : Nat),
      lookupEntry entries c = none → ws (r, c) = "" →
      (transferRows entries uc n ws).1 (r, c) = "") := by
  refine ⟨?_, ?_, ?_⟩
  · intro entries uc n ws r c h
    rcases h with h | h
    · exact writeLoop_row_frame entries uc _ 0 0 ws r c (by omega)
    · exact writeLoop_col_frame entries uc _ 0 0 ws r c h
  · intro entries uc n ws r c h
    exact writeLoop_none_col entries uc c h _ 0 0 ws r
  · intro entries uc n ws r c h hblank
    have hkeep := writeLoop_none_col entries uc c h (List.range n) 0 0 ws r
    exact hkeep.trans hblank

/-- Counterexample to C9 as stated: destination column 2 is unresolved
(`lookupEntry` finds no mapping entry for it) and the template already holds
`"X"` at cell (3, 2); the transfer writes one row, yet it is NOT the case
that column 2 is blank in every written row — written row 0 (sheet row 3)
still shows the non-blank template value `"X"`. -/
theorem unresolved_column_not_blank_cex :
    lookupEntry [(1, ColOut.ok "a" ["v"])] 2 = none ∧
    (transferRows [(1, ColOut.ok "a" ["v"])] 2 1
        (fun p => if p = (3, 2) then "X" else "")).2 = 1 ∧
    ¬(∀ p, p < (transferRows [(1, ColOut.ok "a" ["v"])] 2 1
          (fun p => if p = (3, 2) then "X" else "")).2 →
        (transferRows [(1, ColOut.ok "a" ["v"])] 2 1
          (fun p => if p = (3, 2) then "X" else "")).1 (3 + p, 2) = "") ∧
    (transferRows [(1, ColOut.ok "a" ["v"])] 2 1
        (fun p => if p = (3, 2) then "X" else "")).1 (3, 2) = "X" ∧
    ("X" : String) ≠ "" := by
  refine ⟨by decide, by decide, ?_, by decide, by decide⟩
  intro hall
  exact absurd (hall 0 (by decide)) (by decide)

/-! ## The auto-detector's candidate positions -/

theorem candidatePositions_eq (n : Nat) :
    candidatePositions n = if n = 0 then [] else List.range (min 10 (n - 1) + 1) := by
  cases n with
  | zero => rfl
  | succ m =>
    unfold candidatePositions
    have hm : ((m + 1 : Nat) : Int) - 1 = (m : Int) := by push_cast; ring
    rw [hm]
    have hnn : ¬(min (10 : Int) (m : Int) < 0) := by
      rcases le_total (10 : Int) (m : Int) with h | h
      · rw [min_eq_left h]; omega
      · rw [min_eq_right h]; omega
    rw [if_neg hnn, if_neg (Nat.succ_ne_zero m)]
    congr 1
    have hsub : (m + 1) - 1 = m := rfl
    rw [hsub]
    rcases le_total (10 : Int) (m : Int) with h | h
    · rw [min_eq_left h]
      have hle : 10 ≤ m := by exact_mod_cast h
      rw [Nat.min_eq_left hle]
      rfl
    · rw [min_eq_right h]
      have hle : m ≤ 10 := by exact_mod_cast h
      rw [Nat.min_eq_right hle]
      omega

theorem candScores_offsets (md : List String) (rawDf : List (List String)) :
    ∀ (cands : List Nat) (M : AliasTable),
      (candScores md rawDf cands M).map Prod.snd = cands := by
  intro cands
  induction cands with
  | nil => intro M; rfl
  | cons h0 rest ih =>
    intro M
    have hc : candScores md rawDf (h0 :: rest) M =
        (((buildMapping md (buildOnDf rawDf h0).1 M).1.resolved,
          (buildOnDf rawDf h0).2.length), h0) ::
          candScores md rawDf rest (buildMapping md (buildOnDf rawDf h0).1 M).2 := rfl
    rw [hc, List.map_cons, ih]

/-- Counterexample to C3 as stated: for a 12-row sheet the tried candidate
positions are NOT the claimed range `0 .. min(10, rowCount-1) - 1`
(that is, `0 .. 9`): the loop also tries offset 10, which lies outside it. -/
theorem candidate_positions_cex :
    candidatePositions 12 ≠ List.range (min 10 (12 - 1)) ∧
    10 ∈ candidatePositions 12 ∧
    10 ∉ List.range (min 10 (12 - 1)) := by
  refine ⟨by decide, by decide, by decide⟩

/-- C3 (amended): the candidate header-row positions are exactly the 0-based
offsets `0 .. min(10, rowCount-1)` inclusive — `min(10, rowCount-1) + 1`
candidates — and none at all when the sheet has no rows; and the
auto-detect loop tries exactly this list: `autoDetect` folds over
`candidatePositions rawDf.length`, and the candidate evaluations it performs
(`candScores`, one per examined offset, in loop order) carry exactly these
offsets. -/
theorem auto_detect_candidate_positions :
    (∀ n : Nat, candidatePositions n =
      if n = 0 then [] else List.range (min 10 (n - 1) + 1)) ∧
    (∀ (md : List String) (M : AliasTable) (rawDf : List (List String)),
      autoDetect md M rawDf =
        (autoDetectGo md rawDf (candidatePositions rawDf.length) M none).1 ∧
      (candScores md rawDf (candidatePositions rawDf.length) M).map Prod.snd =
        candidatePositions rawDf.length) := by
  constructor
  · exact candidatePositions_eq
  · intro md M rawDf
    exact ⟨rfl, candScores_offsets md rawDf (candidatePositions rawDf.length) M⟩

/-! ## The auto-detector's failure condition -/

theorem autoDetectGo_cons (md : List String) (rawDf : List (List String))
    (h0 : Nat) (rest : List Nat) (M : AliasTable) (best : Option Best) :
    autoDetectGo md rawDf (h0 :: rest) M best =
      autoDetectGo md rawDf rest (buildMapping md (buildOnDf rawDf h0).1 M).2
        (some (bestStep
          ⟨((buildMapping md (buildOnDf rawDf h0).1 M).1.resolved,
            (buildOnDf rawDf h0).2.length), h0, (buildOnDf rawDf h0).1,
            (buildMapping md (buildOnDf rawDf h0).1 M).1, (buildOnDf rawDf h0).2⟩
          best)) := by
  cases best with
  | none => rfl
  | some b =>
    by_cases hgt : lexGt ((buildMapping md (buildOnDf rawDf h0).1 M).1.resolved,
        (buildOnDf rawDf h0).2.length) b.score
    · simp [autoDetectGo, bestStep, hgt]
    · simp [autoDetectGo, bestStep, hgt]

theorem autoDetectGo_none_iff (md : List String) (rawDf : List (List String)) :
    ∀ (cands : List Nat) (M : AliasTable) (best : Option Best),
      (autoDetectGo md rawDf cands M best).1 = none ↔ (cands = [] ∧ best = none) := by
  intro cands
  induction cands with
  | nil =>
    intro M best
    simp [autoDetectGo]
  | cons h0 rest ih =>
    intro M best
    rw [autoDetectGo_cons, ih]
    simp

/-- C4 (amended): the auto-detector fails (`best is None`, the
`"Could not auto-detect a usable header row."` error) precisely when the
onboarding sheet has no rows at all; a sheet with one row, or one whose
candidates all yield zero kept headers, still produces a winner. -/
theorem auto_detect_failure_iff (md : List String) (M : AliasTable)
    (rawDf : List (List String)) :
    autoDetect md M rawDf = none ↔ rawDf = [] := by
  unfold autoDetect
  rw [autoDetectGo_none_iff]
  constructor
  · rintro ⟨hc, -⟩
    rw [candidatePositions_eq] at hc
    by_cases hn : rawDf.length = 0
    · exact List.length_eq_zero.mp hn
    · rw [if_neg hn] at hc
      exact absurd hc (by simp)
  · rintro rfl
    exact ⟨rfl, rfl⟩

/-- Counterexample to C4 as stated: the claimed equivalence
"fails iff (fewer than 2 rows, or every candidate yields zero kept headers)"
is false at two concrete inputs. A 2-row all-blank sheet has every candidate
header row yield zero kept headers, yet auto-detection succeeds (each
candidate still enters with score (0, 0)); and a 1-row sheet has fewer than
2 rows, yet auto-detection succeeds as well. -/
theorem auto_detect_failure_cex :
    ¬(autoDetect ["A"] [] [[""], [""]] = none ↔
        (([[""], [""]] : List (List String)).length < 2 ∨
          ∀ h0 ∈ candidatePositions ([[""], [""]] : List (List String)).length,
            keepHeaders (cleanHeaderRow
              (([[""], [""]] : List (List String)).getD h0 [])) = [])) ∧
    ¬(autoDetect ["A"] [] [["A"]] = none ↔
        (([["A"]] : List (List String)).length < 2 ∨
          ∀ h0 ∈ candidatePositions ([["A"]] : List (List String)).length,
            keepHeaders (cleanHeaderRow
              (([["A"]] : List (List String)).getD h0 [])) = [])) ∧
    ([[""], [""]] : List (List String)).length = 2 ∧
    (∀ h0 ∈ candidatePositions 2,
      keepHeaders (cleanHeaderRow (([[""], [""]] : List (List String)).getD h0 [])) = []) ∧
    (autoDetect ["A"] [] [[""], [""]]).isSome = true ∧
    (autoDetect ["A"] [] [["A"]]).isSome = true := by
  refine ⟨by decide, by decide, by decide, by decide, by decide, by decide⟩

/-! ## The auto-detector keeps the first-seen maximal score -/

theorem lexGt_iff (s t : Nat × Nat) : lexGt s t = true ↔ lexLtP t s := by
  unfold lexGt lexLtP
  simp

theorem lexLeP_of_not_lt (s t : Nat × Nat) (h : ¬lexLtP t s) : lexLeP s t := by
  rcases s with ⟨s1, s2⟩
  rcases t with ⟨t1, t2⟩
  unfold lexLeP lexLtP at *
  simp only [Prod.mk.injEq]
  omega

theorem lexLeP_trans_lt (s t u : Nat × Nat) (h1 : lexLeP s t) (h2 : lexLtP t u) :
    lexLtP s u := by
  rcases s with ⟨s1, s2⟩
  rcases t with ⟨t1, t2⟩
  rcases u with ⟨u1, u2⟩
  unfold lexLeP lexLtP at *
  simp only [Prod.mk.injEq] at h1
  omega

theorem detectInv_step (X : Best) (best : Option Best)
    (ps : List ((Nat × Nat) × Nat)) (hinv : detectInv ps best) :
    detectInv (ps ++ [(X.score, X.h0)]) (some (bestStep X best)) := by
  cases best with
  | none =>
    rw [show bestStep X none = X from rfl]
    rcases hinv with ⟨-, hps⟩ | ⟨b, pre, suf, hb, hdec, hall, hpre⟩
    · subst hps
      right
      refine ⟨X, [], [], rfl, by simp, ?_, by simp⟩
      intro s hs
      simp only [List.nil_append, List.mem_singleton] at hs
      subst hs
      exact Or.inr rfl
    · exact absurd hb (by simp)
  | some b =>
    rw [show bestStep X (some b) = if lexGt X.score b.score then X else b from rfl]
    rcases hinv with ⟨hb, -⟩ | ⟨b', pre, suf, hb, hdec, hall, hpre⟩
    · exact absurd hb (by simp)
    · have hbb : b' = b := by
        injection hb with h'
        exact h'.symm
      rw [hbb] at hdec hall hpre
      by_cases hgt : lexGt X.score b.score
      · have hlt : lexLtP b.score X.score := (lexGt_iff _ _).mp hgt
        right
        rw [if_pos hgt]
        refine ⟨X, ps, [], rfl, rfl, ?_, ?_⟩
        · intro s hs
          rcases List.mem_append.mp hs with hs | hs
          · exact Or.inl (lexLeP_trans_lt s.1 b.score _ (hall s hs) hlt)
          · rw [List.mem_singleton] at hs
            subst hs
            exact Or.inr rfl
        · intro s hs
          exact lexLeP_trans_lt s.1 b.score _ (hall s hs) hlt
      · have hle : lexLeP X.score b.score :=
          lexLeP_of_not_lt _ b.score (fun hcon => hgt ((lexGt_iff _ _).mpr hcon))
        right
        rw [if_neg hgt]
        refine ⟨b, pre, suf ++ [(X.score, X.h0)], rfl, ?_, ?_, hpre⟩
        · rw [hdec, List.append_assoc]
          rfl
        · intro s hs
          rcases List.mem_append.mp hs with hs | hs
          · exact hall s hs
          · rw [List.mem_singleton] at hs
            subst hs
            exact hle

theorem autoDetectGo_inv (md : List String) (rawDf : List (List String)) :
    ∀ (cands : List Nat) (M : AliasTable) (best : Option Best)
      (ps : List ((Nat × Nat) × Nat)),
      detectInv ps best →
      detectInv (ps ++ candScores md rawDf cands M)
        ((autoDetectGo md rawDf cands M best).1) := by
  intro cands
  induction cands with
  | nil =>
    intro M best ps h
    simpa [autoDetectGo, candScores] using h
  | cons h0 rest ih =>
    intro M best ps hinv
    rw [autoDetectGo_cons]
    have hcs : candScores md rawDf (h0 :: rest) M =
        (((buildMapping md (buildOnDf rawDf h0).1 M).1.resolved,
          (buildOnDf rawDf h0).2.length), h0) ::
        candScores md rawDf rest (buildMapping md (buildOnDf rawDf h0).1 M).2 := rfl
    rw [hcs]
    have happ : ps ++ ((((buildMapping md (buildOnDf rawDf h0).1 M).1.resolved,
          (buildOnDf rawDf h0).2.length), h0) ::
          candScores md rawDf rest (buildMapping md (buildOnDf rawDf h0).1 M).2) =
        (ps ++ [(((buildMapping md (buildOnDf rawDf h0).1 M).1.resolved,
          (buildOnDf rawDf h0).2.length), h0)]) ++
          candScores md rawDf rest (buildMapping md (buildOnDf rawDf h0).1 M).2 := by
      rw [List.append_assoc]
      rfl
    rw [happ]
    apply ih
    exact detectInv_step
      ⟨((buildMapping md (buildOnDf rawDf h0).1 M).1.resolved,
        (buildOnDf rawDf h0).2.length), h0, (buildOnDf rawDf h0).1,
        (buildMapping md (buildOnDf rawDf h0).1 M).1, (buildOnDf rawDf h0).2⟩
      best ps hinv

/-- C5: when auto-detection succeeds, the winning candidate's
(resolved, kept) score pair is lexicographically maximal among all candidate
scores (taken in loop order, alias-table state threaded through), and every
candidate examined before the winner scored strictly lower — ties keep the
earlier candidate. -/
theorem auto_detect_first_argmax (md : List String) (M : AliasTable)
    (rawDf : List (List String)) (b : Best)
    (h : autoDetect md M rawDf = some b) :
    ∃ pre suf,
      candScores md rawDf (candidatePositions rawDf.length) M =
        pre ++ ((b.score, b.h0) :: suf) ∧
      (∀ s ∈ candScores md rawDf (candidatePositions rawDf.length) M,
        lexLeP s.1 b.score) ∧
      (∀ s ∈ pre, lexLtP s.1 b.score) := by
  have hinv := autoDetectGo_inv md rawDf (candidatePositions rawDf.length) M none []
    (Or.inl ⟨rfl, rfl⟩)
  have heq : (autoDetectGo md rawDf (candidatePositions rawDf.length) M none).1 =
      autoDetect md M rawDf := rfl
  rw [heq, h] at hinv
  rcases hinv with ⟨hnone, -⟩ | ⟨b', pre, suf, hb', hps, hall, hpre⟩
  · exact absurd hnone (by simp)
  · have hbb : b' = b := by
      injection hb' with hb''
      exact hb''.symm
    subst hbb
    refine ⟨pre, suf, ?_, ?_, hpre⟩
    · simpa using hps
    · intro s hs
      exact hall s (by simpa using hs)

/-- Witness for C5: for the two-row sheet `[["A"], ["x"]]` with master
column `"A"`, the winner is offset 0 with score (1, 1), which is first-seen
maximal among the candidate scores. -/
theorem auto_detect_first_argmax_witness :
    ∃ pre suf,
      candScores ["A"] [["A"], ["x"]]
          (candidatePositions ([["A"], ["x"]] : List (List String)).length) [] =
        pre ++ ((((1 : Nat), (1 : Nat)), (0 : Nat)) :: suf) ∧
      (∀ s ∈ candScores ["A"] [["A"], ["x"]]
          (candidatePositions ([["A"], ["x"]] : List (List String)).length) [],
        lexLeP s.1 (1, 1)) ∧
      (∀ s ∈ pre, lexLtP s.1 (1, 1)) :=
  auto_detect_first_argmax ["A"] [] [["A"], ["x"]]
    ⟨(1, 1), 0, [("A", ["x"])],
      ⟨1, [(1, ColOut.ok "A" ["x"])], [], [ReportLine.okLine "A" "A"]⟩, ["A"]⟩
    (by decide)

/-! ## Repeating `build_mapping` after its in-place alias-table mutation -/

theorem mapAppend_of_not_hasKey (k : String) (d : String) :
    ∀ (M : AliasTable), hasKey M k = false → mapAppend M k d = M := by
  intro M
  induction M with
  | nil => intro _; rfl
  | cons p rest ih =>
    intro h
    rcases p with ⟨k', v⟩
    by_cases hk : k' = k
    · exfalso
      unfold hasKey at h
      rw [List.find?_cons_of_pos] at h
      · simp at h
      · simp [hk]
    · unfold mapAppend
      rw [if_neg hk]
      congr 1
      apply ih
      unfold hasKey at h ⊢
      rw [List.find?_cons_of_neg _ (by simp [hk])] at h
      exact h

theorem hasKey_mapAppend (k' d : String) :
    ∀ (M : AliasTable) (k : String), hasKey (mapAppend M k' d) k = hasKey M k := by
  intro M
  induction M with
  | nil => intro k; rfl
  | cons p rest ih =>
    intro k
    rcases p with ⟨k'', v⟩
    by_cases hk : k'' = k'
    · unfold mapAppend
      rw [if_pos hk]
      unfold hasKey
      by_cases hkk : k'' = k
      · rw [List.find?_cons_of_pos _ (by simp [hkk]), List.find?_cons_of_pos _ (by simp [hkk])]
        rfl
      · rw [List.find?_cons_of_neg _ (by simp [hkk]), List.find?_cons_of_neg _ (by simp [hkk])]
    · unfold mapAppend
      rw [if_neg hk]
      unfold hasKey
      by_cases hkk : k'' = k
      · rw [List.find?_cons_of_pos _ (by simp [hkk]), List.find?_cons_of_pos _ (by simp [hkk])]
      · rw [List.find?_cons_of_neg _ (by simp [hkk]), List.find?_cons_of_neg _ (by simp [hkk])]
        exact ih k

theorem mapGet_mapAppend_self (k d : String) :
    ∀ (M : AliasTable), hasKey M k = true →
      mapGet (mapAppend M k d) k = mapGet M k ++ [d] := by
  intro M
  induction M with
  | nil => intro h; simp [hasKey, List.find?] at h
  | cons p rest ih =>
    intro h
    rcases p with ⟨k', v⟩
    by_cases hk : k' = k
    · unfold mapAppend
      rw [if_pos hk]
      unfold mapGet
      rw [List.find?_cons_of_pos _ (by simp [hk]), List.find?_cons_of_pos _ (by simp [hk])]
    · unfold mapAppend
      rw [if_neg hk]
      unfold mapGet
      rw [List.find?_cons_of_neg _ (by simp [hk]), List.find?_cons_of_neg _ (by simp [hk])]
      apply ih
      unfold hasKey at h
      rw [List.find?_cons_of_neg _ (by simp [hk])] at h
      exact h

theorem mapGet_mapAppend_ne (k' d : String) :
    ∀ (M : AliasTable) (k : String), k ≠ k' →
      mapGet (mapAppend M k' d) k = mapGet M k := by
  intro M
  induction M with
  | nil => intro k _; rfl
  | cons p rest ih =>
    intro k hne
    rcases p with ⟨k'', v⟩
    by_cases hk : k'' = k'
    · unfold mapAppend
      rw [if_pos hk]
      unfold mapGet
      have hkk : ¬(k'' = k) := fun hcon => hne (hcon ▸ hk)
      rw [List.find?_cons_of_neg _ (by simp [hkk]), List.find?_cons_of_neg _ (by simp [hkk])]
    · unfold mapAppend
      rw [if_neg hk]
      unfold mapGet
      by_cases hkk : k'' = k
      · rw [List.find?_cons_of_pos _ (by simp [hkk]), List.find?_cons_of_pos _ (by simp [hkk])]
      · rw [List.find?_cons_of_neg _ (by simp [hkk]), List.find?_cons_of_neg _ (by simp [hkk])]
        exact ih k hne

theorem hasKey_stepM (d : String) (M : AliasTable) (k : String) :
    hasKey (stepM M d) k = hasKey M k := by
  unfold stepM
  by_cases hd : d = ""
  · rw [if_pos hd]
  · rw [if_neg hd]
    exact hasKey_mapAppend (norm d) d M k

theorem hasKey_fold (C : List String) :
    ∀ (M : AliasTable) (k : String), hasKey (C.foldl stepM M) k = hasKey M k := by
  induction C with
  | nil => intro M k; rfl
  | cons d C' ih =>
    intro M k
    show hasKey (C'.foldl stepM (stepM M d)) k = _
    rw [ih (stepM M d) k, hasKey_stepM]

theorem appendsOf_cons (d : String) (C : List String) (k : String) :
    appendsOf (d :: C) k =
      if d ≠ "" ∧ norm d = k then d :: appendsOf C k else appendsOf C k := by
  unfold appendsOf
  rw [List.filter_cons]
  by_cases h1 : d = ""
  · rw [if_neg (by simp [h1]), if_neg (by simp [h1])]
  · by_cases h2 : norm d = k
    · rw [if_pos (by simp [h1, h2]), if_pos ⟨h1, h2⟩]
    · rw [if_neg (by simp [h1, h2]), if_neg (by simp [h2])]

theorem mapGet_fold_of_hasKey (C : List String) :
    ∀ (M : AliasTable) (k : String), hasKey M k = true →
      mapGet (C.foldl stepM M) k = mapGet M k ++ appendsOf C k := by
  induction C with
  | nil => intro M k _; simp [appendsOf]
  | cons d C' ih =>
    intro M k hk
    show mapGet (C'.foldl stepM (stepM M d)) k = _
    rw [ih (stepM M d) k (by rw [hasKey_stepM]; exact hk), appendsOf_cons]
    by_cases h1 : d = ""
    · rw [if_neg (by simp [h1])]
      unfold stepM
      rw [if_pos h1]
    · by_cases h2 : norm d = k
      · rw [if_pos ⟨h1, h2⟩]
        unfold stepM
        rw [if_neg h1, h2, mapGet_mapAppend_self k d M hk, List.append_assoc]
        rfl
      · rw [if_neg (by simp [h2])]
        unfold stepM
        rw [if_neg h1, mapGet_mapAppend_ne (norm d) d M k (fun hc => h2 hc.symm)]

theorem mapGet_fold_of_not (C : List String) :
    ∀ (M : AliasTable) (k : String), hasKey M k = false →
      mapGet (C.foldl stepM M) k = mapGet M k := by
  induction C with
  | nil => intro M k _; rfl
  | cons d C' ih =>
    intro M k hk
    show mapGet (C'.foldl stepM (stepM M d)) k = _
    rw [ih (stepM M d) k (by rw [hasKey_stepM]; exact hk)]
    unfold stepM
    by_cases h1 : d = ""
    · rw [if_pos h1]
    · rw [if_neg h1]
      by_cases h2 : norm d = k
      · rw [h2, mapAppend_of_not_hasKey k d M hk]
      · exact mapGet_mapAppend_ne (norm d) d M k (fun hc => h2 hc.symm)

theorem mem_appendsOf {C : List String} {k : String} {e : String}
    (h : e ∈ appendsOf C k) : e ≠ "" ∧ norm e = k := by
  unfold appendsOf at h
  have := List.of_mem_filter h
  simp only [Bool.and_eq_true, decide_eq_true_eq] at this
  exact this

theorem firstAliasMatch_none_of (df : OnDf) :
    ∀ (l : List String), (∀ a ∈ l, seriesByAlias df (norm a) = none) →
      firstAliasMatch df l = none := by
  intro l
  induction l with
  | nil => intro _; rfl
  | cons a t ih =>
    intro h
    rw [firstAliasMatch_cons, h a (List.mem_cons_self _ _)]
    exact ih (fun x hx => h x (List.mem_cons_of_mem _ hx))

theorem firstAliasMatch_restart (df : OnDf) (hdf : ∀ p ∈ df, norm p.1 ≠ "") :
    ∀ (A B : List String) (d : String) (M0 : AliasTable),
      firstAliasMatch df
        (aliasList (A.foldl stepM ((A ++ d :: B).foldl stepM M0)) d) =
      firstAliasMatch df (aliasList (A.foldl stepM M0) d) := by
  intro A B d M0
  by_cases hk : hasKey M0 (norm d) = true
  · have hkey2 : hasKey ((A ++ d :: B).foldl stepM M0) (norm d) = true := by
      rw [hasKey_fold]; exact hk
    unfold aliasList
    rw [mapGet_fold_of_hasKey A _ _ hkey2, mapGet_fold_of_hasKey A _ _ hk]
    rw [mapGet_fold_of_hasKey (A ++ d :: B) _ _ hk]
    set L0 := mapGet M0 (norm d) with hL0
    set F := appendsOf (A ++ d :: B) (norm d) with hF
    set AA := appendsOf A (norm d) with hAA
    set T := (if d = "" then [] else [d]) with hT
    have hshape : (L0 ++ F) ++ AA ++ T = L0 ++ (F ++ (AA ++ T)) := by
      rw [List.append_assoc, List.append_assoc]
    rw [hshape, List.append_assoc L0 AA T]
    rw [firstAliasMatch_append df L0 (F ++ (AA ++ T)),
      firstAliasMatch_append df L0 (AA ++ T)]
    cases firstAliasMatch df L0 with
    | some r => rfl
    | none =>
      show firstAliasMatch df (F ++ (AA ++ T)) = firstAliasMatch df (AA ++ T)
      have hFmem : ∀ e ∈ F, e ≠ "" ∧ norm e = norm d := fun e he => mem_appendsOf he
      have hAAmem : ∀ e ∈ AA, e ≠ "" ∧ norm e = norm d := fun e he => mem_appendsOf he
      cases hsba : seriesByAlias df (norm d) with
      | none =>
        rw [firstAliasMatch_none_of df (F ++ (AA ++ T)), firstAliasMatch_none_of df (AA ++ T)]
        · intro a ha
          rcases List.mem_append.mp ha with ha | ha
          · rw [(hAAmem a ha).2]; exact hsba
          · rw [hT] at ha
            by_cases hd : d = ""
            · rw [if_pos hd] at ha; simp at ha
            · rw [if_neg hd] at ha
              rw [List.mem_singleton] at ha
              subst ha
              exact hsba
        · intro a ha
          rcases List.mem_append.mp ha with ha | ha
          · rw [(hFmem a ha).2]; exact hsba
          · rcases List.mem_append.mp ha with ha | ha
            · rw [(hAAmem a ha).2]; exact hsba
            · rw [hT] at ha
              by_cases hd : d = ""
              · rw [if_pos hd] at ha; simp at ha
              · rw [if_neg hd] at ha
                rw [List.mem_singleton] at ha
                subst ha
                exact hsba
      | some v =>
        have hd : d ≠ "" := by
          intro hcon
          rw [hcon] at hsba
          rw [show norm "" = "" from rfl] at hsba
          rw [seriesByAlias_empty_key df hdf] at hsba
          exact absurd hsba (by simp)
        have hTd : T = [d] := by rw [hT, if_neg hd]
        have hFsplit : F = AA ++ (d :: appendsOf B (norm d)) := by
          rw [hF, hAA]
          unfold appendsOf
          rw [List.filter_append, List.filter_cons]
          rw [if_pos (by simp [hd])]
        rw [hFsplit, hTd]
        cases hAAc : AA with
        | nil =>
          simp only [List.nil_append]
          rw [List.cons_append, firstAliasMatch_cons, firstAliasMatch_cons, hsba]
        | cons a AA' =>
          have hna : norm a = norm d := (hAAmem a (by rw [hAAc]; exact List.mem_cons_self _ _)).2
          show firstAliasMatch df ((a :: AA') ++ (d :: appendsOf B (norm d)) ++ ((a :: AA') ++ [d])) = _
          rw [show ((a :: AA') ++ (d :: appendsOf B (norm d)) ++ ((a :: AA') ++ [d])) =
            a :: (AA' ++ (d :: appendsOf B (norm d)) ++ ((a :: AA') ++ [d])) from rfl]
          rw [show ((a :: AA') ++ [d]) = a :: (AA' ++ [d]) from rfl]
          rw [firstAliasMatch_cons, firstAliasMatch_cons, hna, hsba]
  · have hk' : hasKey M0 (norm d) = false := by
      simpa using hk
    have hkey2 : hasKey ((A ++ d :: B).foldl stepM M0) (norm d) = false := by
      rw [hasKey_fold]; exact hk'
    unfold aliasList
    rw [mapGet_fold_of_not A _ _ hkey2, mapGet_fold_of_not A _ _ hk',
      mapGet_fold_of_not (A ++ d :: B) _ _ hk']

theorem foldl_stepM_snoc (A : List String) (d : String) (M : AliasTable) :
    (A ++ [d]).foldl stepM M = stepM (A.foldl stepM M) d := by
  rw [List.foldl_append]
  rfl

theorem buildMappingGo_state (df : OnDf) :
    ∀ (md : List String) (M : AliasTable),
      (buildMappingGo df md M).2 = md.foldl stepM M := by
  intro md
  induction md with
  | nil => intro M; rfl
  | cons d rest ih =>
    intro M
    show (buildMappingGo df rest (stepM M d)).2 = _
    rw [ih (stepM M d)]
    rfl

theorem buildMappingGo_restart (df : OnDf) (hdf : ∀ p ∈ df, norm p.1 ≠ "") :
    ∀ (B A : List String) (M0 : AliasTable),
      (buildMappingGo df B (A.foldl stepM ((A ++ B).foldl stepM M0))).1 =
      (buildMappingGo df B (A.foldl stepM M0)).1 := by
  intro B
  induction B with
  | nil => intro A M0; rfl
  | cons d B' ih =>
    intro A M0
    show colOutcome df _ d :: (buildMappingGo df B' _).1 =
      colOutcome df _ d :: (buildMappingGo df B' _).1
    congr 1
    · unfold colOutcome
      rw [firstAliasMatch_restart df hdf A B' d M0]
    · have hstep1 : stepM (A.foldl stepM ((A ++ d :: B').foldl stepM M0)) d =
          (A ++ [d]).foldl stepM ((A ++ d :: B').foldl stepM M0) :=
        (foldl_stepM_snoc A d _).symm
      have hstep2 : stepM (A.foldl stepM M0) d = (A ++ [d]).foldl stepM M0 :=
        (foldl_stepM_snoc A d M0).symm
      rw [hstep1, hstep2]
      have hlist : A ++ d :: B' = (A ++ [d]) ++ B' := by
        rw [List.append_assoc]
        rfl
      rw [hlist]
      exact ih (A ++ [d]) M0

/-- C10: calling `build_mapping` twice in succession on the same onboarding
dataframe returns identical results (resolved count, per-column entries,
unmatched list and report), even though the first call mutates the shared
alias table in place by appending master display labels to the stored alias
lists: the appended entries never change which alias matches first. -/
theorem build_mapping_repeat_eq (md : List String) (df : OnDf) (M0 : AliasTable)
    (hdf : ∀ p ∈ df, norm p.1 ≠ "") :
    (buildMapping md df (buildMapping md df M0).2).1 = (buildMapping md df M0).1 := by
  unfold buildMapping
  simp only
  have hstate : (buildMappingGo df md M0).2 = md.foldl stepM M0 :=
    buildMappingGo_state df md M0
  rw [hstate]
  have h := buildMappingGo_restart df hdf md [] M0
  simp only [List.nil_append, List.foldl_nil] at h
  rw [h]

/-- Witness for C10: a one-column master sheet against a one-column
onboarding dataframe with a stored alias list; the second `build_mapping`
call, on the mutated table, returns the same result. -/
theorem build_mapping_repeat_eq_witness :
    (buildMapping ["Foo"] [("Foo", ["1"])]
        (buildMapping ["Foo"] [("Foo", ["1"])] [("foo", ["bar"])]).2).1 =
      (buildMapping ["Foo"] [("Foo", ["1"])] [("foo", ["bar"])]).1 :=
  build_mapping_repeat_eq ["Foo"] [("Foo", ["1"])] [("foo", ["bar"])] (by decide)

end Masterfile
